import Mathlib

/-!
Verification of the imagene audio-transcription core.

This file gives a shallow embedding, over `ℚ`, of the parts of the source
relevant to the claims about the shared sample channel (`RingBuffer`,
src/unnamed/part_008), the hysteresis note decoder (`NoteDecoder`,
src/src/workers/Processor.worker.ts) and the quantizer
(`BeatDetector` / `NoteQuantizer`, src/src/music/Quantizer.ts).

JavaScript `number` values are modelled as rationals, `Float32Array`
storage as total functions `Nat → ℚ`, and `Math.round` as
`⌊x + 1/2⌋` (which is exactly JavaScript's round-half-up behaviour).
-/

/-- JavaScript `Math.round`: rounds half-way cases toward positive infinity. -/
def roundJS (x : ℚ) : ℤ := ⌊x + 1/2⌋

/-!
## Shared sample channel (`RingBuffer`, src/unnamed/part_008)

The buffer's mutable state is the pair of indices plus the `Float32Array`
storage; the capacity is fixed at construction.  `writeSeq` models a loop
`for i in [0, count): storage[f i] = g i` (later iterations override
earlier ones), which is how `push` fills the two wrap-around chunks.
-/

structure RingBuffer where
  capacity : Nat
  storage : Nat → ℚ
  writeIndex : Nat
  readIndex : Nat

/-- Functional rendering of `for (i = 0; i < count; i++) storage[f i] = g i`. -/
def writeSeq (storage : Nat → ℚ) (f : Nat → Nat) (g : Nat → ℚ) : Nat → (Nat → ℚ)
  | 0 => storage
  | n + 1 => fun j => if j = f n then g n else writeSeq storage f g n j

/-- Reading `count` samples starting at `start`, in the two chunks
`storage[start .. min count (cap - start))` then `storage[0 ..)`,
exactly as `pull`/`peek` fill their output array. -/
def readChunks (storage : Nat → ℚ) (cap start count : Nat) : List ℚ :=
  let firstChunk := min count (cap - start)
  let secondChunk := count - firstChunk
  ((List.range firstChunk).map fun i => storage (start + i)) ++
    ((List.range secondChunk).map fun i => storage i)

/-- RingBuffer.availableRead (src/unnamed/part_008, lines 100-113). -/
def RingBuffer.availableRead (rb : RingBuffer) : Nat :=
  if rb.readIndex ≤ rb.writeIndex then rb.writeIndex - rb.readIndex
  else rb.capacity - rb.readIndex + rb.writeIndex

/-- RingBuffer.availableWrite (src/unnamed/part_008, lines 115-123):
one slot is kept empty to distinguish full from empty. -/
def RingBuffer.availableWrite (rb : RingBuffer) : Nat :=
  rb.capacity - 1 - rb.availableRead

/-- RingBuffer.push (src/unnamed/part_008, lines 141-172): writes the leading
`min availableWrite data.length` samples in two wrap-around chunks and
atomically advances the write index; returns the count written. -/
def RingBuffer.push (rb : RingBuffer) (data : List ℚ) : Nat × RingBuffer :=
  let toWrite := min rb.availableWrite data.length
  if toWrite = 0 then (0, rb)
  else
    let wi := rb.writeIndex
    let firstChunk := min toWrite (rb.capacity - wi)
    let secondChunk := toWrite - firstChunk
    let s1 := writeSeq rb.storage (fun i => wi + i) (fun i => data.getD i 0) firstChunk
    let s2 := writeSeq s1 (fun i => i) (fun i => data.getD (firstChunk + i) 0) secondChunk
    (toWrite, { rb with storage := s2, writeIndex := (wi + toWrite) % rb.capacity })

/-- RingBuffer.pull (src/unnamed/part_008, lines 180-211): reads the leading
`min availableRead outLen` samples (returned here as the list the output
array receives) and advances the read index. -/
def RingBuffer.pull (rb : RingBuffer) (outLen : Nat) : List ℚ × RingBuffer :=
  let toRead := min rb.availableRead outLen
  if toRead = 0 then ([], rb)
  else
    (readChunks rb.storage rb.capacity rb.readIndex toRead,
     { rb with readIndex := (rb.readIndex + toRead) % rb.capacity })

/-- RingBuffer.peek (src/unnamed/part_008, lines 221-254): reads up to
`outLen` samples starting `offset` past the read position; it performs no
store to either index, so the buffer component is returned unchanged. -/
def RingBuffer.peek (rb : RingBuffer) (outLen offset : Nat) : List ℚ × RingBuffer :=
  let available := rb.availableRead
  if available ≤ offset then ([], rb)
  else
    let toRead := min (available - offset) outLen
    if toRead = 0 then ([], rb)
    else
      (readChunks rb.storage rb.capacity ((rb.readIndex + offset) % rb.capacity) toRead, rb)

/-- RingBuffer.skip (src/unnamed/part_008, lines 263-276). -/
def RingBuffer.skip (rb : RingBuffer) (count : Nat) : Nat × RingBuffer :=
  let toSkip := min rb.availableRead count
  if toSkip = 0 then (0, rb)
  else (toSkip, { rb with readIndex := (rb.readIndex + toSkip) % rb.capacity })

/-- The unread samples, oldest first: the channel's abstract queue. -/
def RingBuffer.contents (rb : RingBuffer) : List ℚ :=
  (List.range rb.availableRead).map fun i => rb.storage ((rb.readIndex + i) % rb.capacity)

/-- Both indices in range; established by `createRingBufferStorage` and
preserved by every operation. -/
def RingBuffer.Valid (rb : RingBuffer) : Prop :=
  rb.writeIndex < rb.capacity ∧ rb.readIndex < rb.capacity

instance (rb : RingBuffer) : Decidable rb.Valid := by
  unfold RingBuffer.Valid; infer_instance

/-- createRingBufferStorage (src/unnamed/part_008, lines 41-63): both indices
start at 0 and the SharedArrayBuffer is zero-initialised. -/
def initBuffer (capacity : Nat) : RingBuffer :=
  { capacity := capacity, storage := fun _ => 0, writeIndex := 0, readIndex := 0 }

/-- One producer/consumer call on the channel. -/
inductive ChanOp where
  | push (data : List ℚ)
  | pull (outLen : Nat)
  | peek (outLen offset : Nat)
  | skip (count : Nat)

def runOp (rb : RingBuffer) : ChanOp → RingBuffer
  | .push data => (rb.push data).2
  | .pull outLen => (rb.pull outLen).2
  | .peek outLen offset => (rb.peek outLen offset).2
  | .skip count => (rb.skip count).2

def runOps (rb : RingBuffer) (ops : List ChanOp) : RingBuffer :=
  ops.foldl runOp rb

section RingBufferLemmas

lemma RingBuffer.availableRead_le (rb : RingBuffer) (h : rb.Valid) :
    rb.availableRead ≤ rb.capacity - 1 := by
  obtain ⟨hw, hr⟩ := h
  unfold RingBuffer.availableRead
  split <;> omega

lemma RingBuffer.conservation (rb : RingBuffer) (h : rb.Valid) :
    rb.availableRead + rb.availableWrite = rb.capacity - 1 := by
  have := rb.availableRead_le h
  unfold RingBuffer.availableWrite
  omega

lemma runOp_capacity (rb : RingBuffer) (op : ChanOp) :
    (runOp rb op).capacity = rb.capacity := by
  cases op <;>
      simp only [runOp, RingBuffer.push, RingBuffer.pull, RingBuffer.peek, RingBuffer.skip] <;>
      (repeat' split) <;> rfl

lemma runOp_valid (rb : RingBuffer) (op : ChanOp) (h : rb.Valid) : (runOp rb op).Valid := by
  obtain ⟨hw, hr⟩ := h
  have hcap : 0 < rb.capacity := by omega
  cases op <;>
      simp only [runOp, RingBuffer.push, RingBuffer.pull, RingBuffer.peek, RingBuffer.skip] <;>
      (repeat' split) <;>
      exact ⟨by first | exact hw | exact Nat.mod_lt _ hcap,
             by first | exact hr | exact Nat.mod_lt _ hcap⟩

lemma runOps_capacity (rb : RingBuffer) (ops : List ChanOp) :
    (runOps rb ops).capacity = rb.capacity := by
  induction ops generalizing rb with
  | nil => rfl
  | cons op ops ih => rw [runOps, List.foldl_cons, ← runOps, ih, runOp_capacity]

lemma runOps_valid (rb : RingBuffer) (ops : List ChanOp) (h : rb.Valid) :
    (runOps rb ops).Valid := by
  induction ops generalizing rb with
  | nil => exact h
  | cons op ops ih => exact ih _ (runOp_valid _ _ h)

lemma writeSeq_miss (storage : Nat → ℚ) (f : Nat → Nat) (g : Nat → ℚ) (n j : Nat)
    (h : ∀ i < n, f i ≠ j) : writeSeq storage f g n j = storage j := by
  induction n with
  | zero => rfl
  | succ n ih =>
    rw [writeSeq]
    show (if j = f n then g n else writeSeq storage f g n j) = storage j
    rw [if_neg (fun he => h n (by omega) he.symm)]
    exact ih fun i hi => h i (by omega)

lemma writeSeq_hit (storage : Nat → ℚ) (f : Nat → Nat) (g : Nat → ℚ) (n i : Nat)
    (hi : i < n) (inj : ∀ a b, a < n → b < n → f a = f b → a = b) :
    writeSeq storage f g n (f i) = g i := by
  induction n with
  | zero => omega
  | succ n ih =>
    rw [writeSeq]
    show (if f i = f n then g n else writeSeq storage f g n (f i)) = g i
    by_cases he : i = n
    · subst he; rw [if_pos rfl]
    · rw [if_neg fun hfi => he (inj i n (by omega) (by omega) hfi)]
      exact ih (by omega) fun a b ha hb => inj a b (by omega) (by omega)

lemma mod_shift_inj (cap ri a b : Nat) (ha : a < cap) (hb : b < cap)
    (h : (ri + a) % cap = (ri + b) % cap) : a = b := by
  have hm : a ≡ b [MOD cap] := Nat.ModEq.add_left_cancel' ri h
  rw [Nat.ModEq, Nat.mod_eq_of_lt ha, Nat.mod_eq_of_lt hb] at hm
  exact hm

lemma take_eq_range_map (l : List ℚ) (k : Nat) (hk : k ≤ l.length) :
    l.take k = (List.range k).map (fun i => l.getD i 0) := by
  apply List.ext_getElem
  · simp [hk]
  · intro i h1 h2
    simp only [List.getElem_take, List.getElem_map, List.getElem_range]
    rw [List.getD_eq_getElem l 0 (by simp at h1 ⊢; omega)]

lemma readChunks_eq (storage : Nat → ℚ) (cap start count : Nat)
    (hs : start < cap) (hc : count ≤ cap) :
    readChunks storage cap start count =
      (List.range count).map fun i => storage ((start + i) % cap) := by
  simp only [readChunks]
  have hfc : min count (cap - start) ≤ count := Nat.min_le_left _ _
  have hsplit : count = min count (cap - start) + (count - min count (cap - start)) := by omega
  rw [show (List.range count).map (fun i => storage ((start + i) % cap))
        = (List.range (min count (cap - start) + (count - min count (cap - start)))).map
            (fun i => storage ((start + i) % cap)) by rw [← hsplit],
      List.range_add, List.map_append, List.map_map]
  congr 1
  · apply List.map_congr_left
    intro i hi
    rw [List.mem_range] at hi
    rw [Nat.mod_eq_of_lt (by omega)]
  · apply List.map_congr_left
    intro i hi
    rw [List.mem_range] at hi
    have hfc2 : min count (cap - start) = cap - start := by omega
    simp only [Function.comp_apply]
    have : start + (min count (cap - start) + i) = cap + i := by omega
    rw [this, Nat.add_mod_left, Nat.mod_eq_of_lt (by omega)]

lemma RingBuffer.writeIndex_eq (rb : RingBuffer) (hv : rb.Valid) :
    (rb.readIndex + rb.availableRead) % rb.capacity = rb.writeIndex := by
  obtain ⟨hw, hr⟩ := hv
  unfold RingBuffer.availableRead
  split
  · rw [show rb.readIndex + (rb.writeIndex - rb.readIndex) = rb.writeIndex by omega,
        Nat.mod_eq_of_lt hw]
  · rw [show rb.readIndex + (rb.capacity - rb.readIndex + rb.writeIndex)
          = rb.capacity + rb.writeIndex by omega,
        Nat.add_mod_left, Nat.mod_eq_of_lt hw]

lemma pushStorage_hit (st : Nat → ℚ) (data : List ℚ) (cap wi k : Nat)
    (hw : wi < cap) (hkcap : k ≤ cap - 1) (i : Nat) (hi : i < k) :
    writeSeq (writeSeq st (fun i => wi + i) (fun i => data.getD i 0) (min k (cap - wi)))
      (fun i => i) (fun i => data.getD (min k (cap - wi) + i) 0) (k - min k (cap - wi))
      ((wi + i) % cap) = data.getD i 0 := by
  by_cases hifc : i < min k (cap - wi)
  · rw [Nat.mod_eq_of_lt (by omega)]
    rw [writeSeq_miss _ _ _ _ _ (fun i' hi' => by omega)]
    exact writeSeq_hit st _ _ _ i hifc (fun a b _ _ h => by omega)
  · have hfc : min k (cap - wi) = cap - wi := by omega
    have h1 : (wi + i) % cap = wi + i - cap := by
      rw [Nat.mod_eq_sub_mod (by omega), Nat.mod_eq_of_lt (by omega)]
    rw [h1]
    have h2 := writeSeq_hit
      (writeSeq st (fun i => wi + i) (fun i => data.getD i 0) (min k (cap - wi)))
      (fun i => i) (fun i => data.getD (min k (cap - wi) + i) 0) (k - min k (cap - wi))
      (wi + i - cap) (by omega) (fun a b _ _ h => h)
    simp only [] at h2
    rw [h2, show min k (cap - wi) + (wi + i - cap) = i by omega]

lemma pushStorage_miss (st : Nat → ℚ) (data : List ℚ) (cap wi k : Nat)
    (hw : wi < cap) (hkcap : k ≤ cap - 1) (j : Nat)
    (hj : ∀ i < k, (wi + i) % cap ≠ j) :
    writeSeq (writeSeq st (fun i => wi + i) (fun i => data.getD i 0) (min k (cap - wi)))
      (fun i => i) (fun i => data.getD (min k (cap - wi) + i) 0) (k - min k (cap - wi))
      j = st j := by
  rw [writeSeq_miss, writeSeq_miss]
  · intro i' hi'
    have := hj i' (by omega)
    rw [Nat.mod_eq_of_lt (by omega)] at this
    exact this
  · intro i' hi'
    have hfc : min k (cap - wi) = cap - wi := by omega
    have h1 : (wi + (min k (cap - wi) + i')) % cap = i' := by
      rw [show wi + (min k (cap - wi) + i') = cap + i' by omega, Nat.add_mod_left,
          Nat.mod_eq_of_lt (by omega)]
    have := hj (min k (cap - wi) + i') (by omega)
    rw [h1] at this
    exact this

lemma RingBuffer.contents_take (rb : RingBuffer) (t : Nat) (ht : t ≤ rb.availableRead) :
    rb.contents.take t =
      (List.range t).map (fun i => rb.storage ((rb.readIndex + i) % rb.capacity)) := by
  unfold RingBuffer.contents
  rw [← List.map_take, List.take_range, Nat.min_eq_left ht]

lemma drop_append_exact {α : Type} (l1 l2 : List α) (n : Nat) (h : l1.length = n) :
    (l1 ++ l2).drop n = l2 := by
  subst h; exact List.drop_left l1 l2

lemma RingBuffer.contents_drop (rb : RingBuffer) (t : Nat) (ht : t ≤ rb.availableRead) :
    rb.contents.drop t =
      (List.range (rb.availableRead - t)).map
        (fun i => rb.storage ((rb.readIndex + (t + i)) % rb.capacity)) := by
  unfold RingBuffer.contents
  rw [show rb.availableRead = t + (rb.availableRead - t) by omega, List.range_add,
      List.map_append, drop_append_exact _ _ t (by simp), List.map_map,
      show t + (rb.availableRead - t) - t = rb.availableRead - t by omega]
  apply List.map_congr_left
  intro i _
  rfl

/-- Full characterisation of `push`: it reports `min availableWrite data.length`,
appends exactly that many leading samples of `data` to the unread queue, keeps
the read index, and never touches storage at or beyond `capacity`. -/
lemma RingBuffer.push_spec (rb : RingBuffer) (data : List ℚ) (hv : rb.Valid) :
    (rb.push data).1 = min rb.availableWrite data.length ∧
    (rb.push data).2.capacity = rb.capacity ∧
    (rb.push data).2.readIndex = rb.readIndex ∧
    (rb.push data).2.Valid ∧
    (rb.push data).2.contents = rb.contents ++ data.take (min rb.availableWrite data.length) ∧
    ∀ j, rb.capacity ≤ j → (rb.push data).2.storage j = rb.storage j := by
  obtain ⟨cap, st, wi, ri⟩ := rb
  have hw : wi < cap := hv.1
  have hr : ri < cap := hv.2
  set A := RingBuffer.availableRead ⟨cap, st, wi, ri⟩ with hAdef
  have hAcases : A = if ri ≤ wi then wi - ri else cap - ri + wi := by rw [hAdef]; rfl
  have hA : A ≤ cap - 1 := by rw [hAcases]; split <;> omega
  have hWdef : RingBuffer.availableWrite ⟨cap, st, wi, ri⟩ = cap - 1 - A := by
    rw [RingBuffer.availableWrite, hAdef]
  set k := min (RingBuffer.availableWrite ⟨cap, st, wi, ri⟩) data.length with hk
  have hkW : k ≤ cap - 1 - A := by rw [hk, hWdef]; exact Nat.min_le_left _ _
  have hkcap : k ≤ cap - 1 := by omega
  by_cases hk0 : k = 0
  · have hpush : RingBuffer.push ⟨cap, st, wi, ri⟩ data = (0, ⟨cap, st, wi, ri⟩) := by
      simp only [RingBuffer.push]
      rw [← hk, if_pos hk0]
    rw [hpush, hk0]
    exact ⟨rfl, rfl, rfl, ⟨hw, hr⟩, by simp, fun j _ => rfl⟩
  · have hklen : k ≤ data.length := by rw [hk]; exact Nat.min_le_right _ _
    have hwieq : (ri + A) % cap = wi := by
      have := RingBuffer.writeIndex_eq ⟨cap, st, wi, ri⟩ ⟨hw, hr⟩
      rw [← hAdef] at this
      exact this
    have hpush : RingBuffer.push ⟨cap, st, wi, ri⟩ data =
        (k, ⟨cap,
             writeSeq (writeSeq st (fun i => wi + i) (fun i => data.getD i 0) (min k (cap - wi)))
               (fun i => i) (fun i => data.getD (min k (cap - wi) + i) 0) (k - min k (cap - wi)),
             (wi + k) % cap, ri⟩) := by
      simp only [RingBuffer.push]
      rw [← hk, if_neg hk0]
    have havail : ∀ s : Nat → ℚ,
        RingBuffer.availableRead ⟨cap, s, (wi + k) % cap, ri⟩ = A + k := by
      intro s
      simp only [RingBuffer.availableRead]
      rcases le_or_lt ri wi with h1 | h1
      · have hAeq : A = wi - ri := by rw [hAcases, if_pos h1]
        rcases Nat.lt_or_ge (wi + k) cap with h2 | h2
        · rw [Nat.mod_eq_of_lt h2]
          split_ifs <;> omega
        · rw [Nat.mod_eq_sub_mod h2, Nat.mod_eq_of_lt (by omega)]
          split_ifs <;> omega
      · have hAeq : A = cap - ri + wi := by rw [hAcases, if_neg (by omega)]
        rcases Nat.lt_or_ge (wi + k) cap with h2 | h2
        · rw [Nat.mod_eq_of_lt h2]
          split_ifs <;> omega
        · rw [Nat.mod_eq_sub_mod h2, Nat.mod_eq_of_lt (by omega)]
          split_ifs <;> omega
    have hcont : RingBuffer.contents
        ⟨cap,
         writeSeq (writeSeq st (fun i => wi + i) (fun i => data.getD i 0) (min k (cap - wi)))
           (fun i => i) (fun i => data.getD (min k (cap - wi) + i) 0) (k - min k (cap - wi)),
         (wi + k) % cap, ri⟩
        = RingBuffer.contents ⟨cap, st, wi, ri⟩ ++ data.take k := by
      unfold RingBuffer.contents
      rw [havail, ← hAdef, List.range_add, List.map_append, List.map_map,
          take_eq_range_map data k hklen]
      congr 1
      · apply List.map_congr_left
        intro i hi
        rw [List.mem_range] at hi
        apply pushStorage_miss st data cap wi k hw hkcap
        intro i' hi' heq
        have h1 : (wi + i') % cap = (ri + (A + i')) % cap := by
          conv_lhs => rw [← hwieq]
          rw [Nat.mod_add_mod, Nat.add_assoc]
        rw [h1] at heq
        have := mod_shift_inj cap ri (A + i') i (by omega) (by omega) heq
        omega
      · apply List.map_congr_left
        intro i hi
        rw [List.mem_range] at hi
        simp only [Function.comp_apply]
        have h1 : (ri + (A + i)) % cap = (wi + i) % cap := by
          conv_rhs => rw [← hwieq]
          rw [Nat.mod_add_mod, Nat.add_assoc]
        rw [h1]
        exact pushStorage_hit st data cap wi k hw hkcap i hi
    rw [hpush]
    refine ⟨rfl, rfl, rfl, ⟨Nat.mod_lt _ (by omega), hr⟩, hcont, ?_⟩
    intro j hj
    have hj' : cap ≤ j := hj
    apply pushStorage_miss st data cap wi k hw hkcap
    intro i hi
    have hlt : (wi + i) % cap < cap := Nat.mod_lt _ (by omega)
    omega

/-- Full characterisation of `pull`: it returns the oldest
`min availableRead outLen` unread samples and removes exactly those from the
queue, leaving capacity, write index and storage untouched. -/
lemma RingBuffer.pull_spec (rb : RingBuffer) (outLen : Nat) (hv : rb.Valid) :
    (rb.pull outLen).1 = rb.contents.take (min rb.availableRead outLen) ∧
    (rb.pull outLen).2.capacity = rb.capacity ∧
    (rb.pull outLen).2.writeIndex = rb.writeIndex ∧
    (rb.pull outLen).2.storage = rb.storage ∧
    (rb.pull outLen).2.Valid ∧
    (rb.pull outLen).2.contents = rb.contents.drop (min rb.availableRead outLen) := by
  obtain ⟨cap, st, wi, ri⟩ := rb
  have hw : wi < cap := hv.1
  have hr : ri < cap := hv.2
  set A := RingBuffer.availableRead ⟨cap, st, wi, ri⟩ with hAdef
  have hAcases : A = if ri ≤ wi then wi - ri else cap - ri + wi := by rw [hAdef]; rfl
  have hA : A ≤ cap - 1 := by rw [hAcases]; split <;> omega
  set t := min A outLen with ht
  have htA : t ≤ A := by rw [ht]; exact Nat.min_le_left _ _
  by_cases ht0 : t = 0
  · have hpull : RingBuffer.pull ⟨cap, st, wi, ri⟩ outLen = ([], ⟨cap, st, wi, ri⟩) := by
      simp only [RingBuffer.pull]
      rw [← hAdef, ← ht, if_pos ht0]
    rw [hpull, ht0]
    exact ⟨by simp, rfl, rfl, rfl, ⟨hw, hr⟩, by simp⟩
  · have hpull : RingBuffer.pull ⟨cap, st, wi, ri⟩ outLen =
        (readChunks st cap ri t, ⟨cap, st, wi, (ri + t) % cap⟩) := by
      simp only [RingBuffer.pull]
      rw [← hAdef, ← ht, if_neg ht0]
    have hvals : readChunks st cap ri t = (RingBuffer.contents ⟨cap, st, wi, ri⟩).take t := by
      rw [readChunks_eq st cap ri t hr (by omega),
          RingBuffer.contents_take ⟨cap, st, wi, ri⟩ t htA]
    have havail : RingBuffer.availableRead ⟨cap, st, wi, (ri + t) % cap⟩ = A - t := by
      simp only [RingBuffer.availableRead]
      rcases le_or_lt ri wi with h1 | h1
      · have hAeq : A = wi - ri := by rw [hAcases, if_pos h1]
        rcases Nat.lt_or_ge (ri + t) cap with h2 | h2
        · rw [Nat.mod_eq_of_lt h2]
          split_ifs <;> omega
        · rw [Nat.mod_eq_sub_mod h2, Nat.mod_eq_of_lt (by omega)]
          split_ifs <;> omega
      · have hAeq : A = cap - ri + wi := by rw [hAcases, if_neg (by omega)]
        rcases Nat.lt_or_ge (ri + t) cap with h2 | h2
        · rw [Nat.mod_eq_of_lt h2]
          split_ifs <;> omega
        · rw [Nat.mod_eq_sub_mod h2, Nat.mod_eq_of_lt (by omega)]
          split_ifs <;> omega
    have hcont : RingBuffer.contents ⟨cap, st, wi, (ri + t) % cap⟩
        = (RingBuffer.contents ⟨cap, st, wi, ri⟩).drop t := by
      rw [RingBuffer.contents_drop ⟨cap, st, wi, ri⟩ t htA]
      unfold RingBuffer.contents
      rw [havail, ← hAdef]
      apply List.map_congr_left
      intro i _
      show st (((ri + t) % cap + i) % cap) = st ((ri + (t + i)) % cap)
      rw [Nat.mod_add_mod, Nat.add_assoc]
    rw [hpull]
    exact ⟨hvals, rfl, rfl, rfl, ⟨hw, Nat.mod_lt _ (by omega)⟩, hcont⟩

/-- Full characterisation of `peek`: it returns the window of unread samples
starting `offset` past the read position, and the buffer is entirely
unchanged (no index is stored), so later `pull`/`peek` see the same data. -/
lemma RingBuffer.peek_spec (rb : RingBuffer) (outLen offset : Nat) (hv : rb.Valid) :
    (rb.peek outLen offset).1 = (rb.contents.drop offset).take outLen ∧
    (rb.peek outLen offset).2 = rb := by
  obtain ⟨cap, st, wi, ri⟩ := rb
  have hw : wi < cap := hv.1
  have hr : ri < cap := hv.2
  set A := RingBuffer.availableRead ⟨cap, st, wi, ri⟩ with hAdef
  have hAcases : A = if ri ≤ wi then wi - ri else cap - ri + wi := by rw [hAdef]; rfl
  have hA : A ≤ cap - 1 := by rw [hAcases]; split <;> omega
  have hlen : (RingBuffer.contents ⟨cap, st, wi, ri⟩).length = A := by
    unfold RingBuffer.contents
    rw [← hAdef]
    simp
  by_cases hoff : A ≤ offset
  · have hpeek : RingBuffer.peek ⟨cap, st, wi, ri⟩ outLen offset = ([], ⟨cap, st, wi, ri⟩) := by
      simp only [RingBuffer.peek]
      rw [← hAdef, if_pos hoff]
    rw [hpeek, List.drop_eq_nil_of_le (by rw [hlen]; exact hoff)]
    exact ⟨by simp, rfl⟩
  · by_cases htr : min (A - offset) outLen = 0
    · have hout : outLen = 0 := by omega
      have hpeek : RingBuffer.peek ⟨cap, st, wi, ri⟩ outLen offset = ([], ⟨cap, st, wi, ri⟩) := by
        simp only [RingBuffer.peek]
        rw [← hAdef, if_neg hoff, if_pos htr]
      rw [hpeek, hout]
      exact ⟨by simp, rfl⟩
    · have hpeek : RingBuffer.peek ⟨cap, st, wi, ri⟩ outLen offset =
          (readChunks st cap ((ri + offset) % cap) (min (A - offset) outLen),
           ⟨cap, st, wi, ri⟩) := by
        simp only [RingBuffer.peek]
        rw [← hAdef, if_neg hoff, if_neg htr]
      rw [hpeek]
      refine ⟨?_, rfl⟩
      rw [readChunks_eq st cap _ _ (Nat.mod_lt _ (by omega)) (by omega),
          RingBuffer.contents_drop ⟨cap, st, wi, ri⟩ offset (by omega),
          ← hAdef, ← List.map_take, List.take_range,
          show min outLen (A - offset) = min (A - offset) outLen from Nat.min_comm _ _]
      apply List.map_congr_left
      intro i _
      show st (((ri + offset) % cap + i) % cap) = st ((ri + (offset + i)) % cap)
      rw [Nat.mod_add_mod, Nat.add_assoc]

lemma initBuffer_valid (cap : Nat) (h : 1 ≤ cap) : (initBuffer cap).Valid :=
  ⟨h, h⟩

lemma initBuffer_contents (cap : Nat) : (initBuffer cap).contents = [] := by
  unfold RingBuffer.contents initBuffer RingBuffer.availableRead
  simp

end RingBufferLemmas

/-!
## Round-trip instrumentation

`runLog` executes a sequence of channel calls, collecting the concatenation
of everything offered to `push` and everything returned by `pull`.
`noOverflowB` checks, along the same execution, that no push exceeds the
free space at the moment it runs.
-/

def ChanOp.isPushOrPull : ChanOp → Bool
  | .push _ => true
  | .pull _ => true
  | .peek _ _ => false
  | .skip _ => false

def runLog (rb : RingBuffer) : List ChanOp → RingBuffer × List ℚ × List ℚ
  | [] => (rb, [], [])
  | ChanOp.push data :: ops =>
    let rest := runLog (rb.push data).2 ops
    (rest.1, data ++ rest.2.1, rest.2.2)
  | ChanOp.pull outLen :: ops =>
    let rest := runLog (rb.pull outLen).2 ops
    (rest.1, rest.2.1, (rb.pull outLen).1 ++ rest.2.2)
  | ChanOp.peek outLen offset :: ops => runLog (rb.peek outLen offset).2 ops
  | ChanOp.skip count :: ops => runLog (rb.skip count).2 ops

def noOverflowB (rb : RingBuffer) : List ChanOp → Bool
  | [] => true
  | ChanOp.push data :: ops =>
    decide (data.length ≤ rb.availableWrite) && noOverflowB (rb.push data).2 ops
  | op :: ops => noOverflowB (runOp rb op) ops

section RoundTrip

lemma noOverflowB_cons_push (rb : RingBuffer) (data : List ℚ) (ops : List ChanOp) :
    noOverflowB rb (ChanOp.push data :: ops)
      = (decide (data.length ≤ rb.availableWrite) && noOverflowB (rb.push data).2 ops) := rfl

lemma noOverflowB_cons_pull (rb : RingBuffer) (outLen : Nat) (ops : List ChanOp) :
    noOverflowB rb (ChanOp.pull outLen :: ops) = noOverflowB (rb.pull outLen).2 ops := rfl

lemma runLog_cons_push (rb : RingBuffer) (data : List ℚ) (ops : List ChanOp) :
    runLog rb (ChanOp.push data :: ops)
      = ((runLog (rb.push data).2 ops).1,
         data ++ (runLog (rb.push data).2 ops).2.1,
         (runLog (rb.push data).2 ops).2.2) := rfl

lemma runLog_cons_pull (rb : RingBuffer) (outLen : Nat) (ops : List ChanOp) :
    runLog rb (ChanOp.pull outLen :: ops)
      = ((runLog (rb.pull outLen).2 ops).1,
         (runLog (rb.pull outLen).2 ops).2.1,
         (rb.pull outLen).1 ++ (runLog (rb.pull outLen).2 ops).2.2) := rfl

lemma runLog_balance (ops : List ChanOp) (rb : RingBuffer) (hv : rb.Valid)
    (hpp : ∀ op ∈ ops, op.isPushOrPull = true)
    (hno : noOverflowB rb ops = true) :
    (runLog rb ops).2.2 ++ (runLog rb ops).1.contents
      = rb.contents ++ (runLog rb ops).2.1 := by
  induction ops generalizing rb with
  | nil => simp [runLog]
  | cons op ops ih =>
    cases op with
    | push data =>
      rw [noOverflowB_cons_push, Bool.and_eq_true, decide_eq_true_eq] at hno
      obtain ⟨hlen, hno⟩ := hno
      have hspec := rb.push_spec data hv
      have hmin : min rb.availableWrite data.length = data.length := Nat.min_eq_right hlen
      have hcont : (rb.push data).2.contents = rb.contents ++ data := by
        rw [hspec.2.2.2.2.1, hmin, List.take_of_length_le le_rfl]
      have := ih (rb.push data).2 hspec.2.2.2.1 (fun o ho => hpp o (by simp [ho])) hno
      rw [runLog_cons_push]
      simp only []
      rw [this, hcont]
      simp [List.append_assoc]
    | pull outLen =>
      have hspec := rb.pull_spec outLen hv
      rw [noOverflowB_cons_pull] at hno
      have := ih (rb.pull outLen).2 hspec.2.2.2.2.1 (fun o ho => hpp o (by simp [ho])) hno
      rw [runLog_cons_pull]
      simp only []
      rw [List.append_assoc, this, hspec.1, hspec.2.2.2.2.2, ← List.append_assoc,
          List.take_append_drop]
    | peek outLen offset =>
      exact absurd (hpp (ChanOp.peek outLen offset) (List.mem_cons_self _ _))
        (by simp [ChanOp.isPushOrPull])
    | skip count =>
      exact absurd (hpp (ChanOp.skip count) (List.mem_cons_self _ _))
        (by simp [ChanOp.isPushOrPull])

end RoundTrip

/-!
## Claims about the shared sample channel
-/

/-- Claim C1: for every channel reached from the initial state by any sequence
of push/pull/peek/skip operations, `availableRead + availableWrite`
equals `capacity - 1` after every operation. -/
theorem C1_channel_conservation (cap : Nat) (hcap : 1 ≤ cap) (ops : List ChanOp) :
    (runOps (initBuffer cap) ops).availableRead
      + (runOps (initBuffer cap) ops).availableWrite = cap - 1 := by
  have hv := runOps_valid (initBuffer cap) ops (initBuffer_valid cap hcap)
  have h := RingBuffer.conservation _ hv
  rw [runOps_capacity] at h
  exact h

theorem C1_channel_conservation_witness :
    1 ≤ 4 ∧
    (runOps (initBuffer 4) [ChanOp.push [1, 2], ChanOp.pull 1, ChanOp.peek 2 0,
        ChanOp.skip 1]).availableRead
      + (runOps (initBuffer 4) [ChanOp.push [1, 2], ChanOp.pull 1, ChanOp.peek 2 0,
        ChanOp.skip 1]).availableWrite = 4 - 1 :=
  ⟨by norm_num,
   C1_channel_conservation 4 (by norm_num)
     [ChanOp.push [1, 2], ChanOp.pull 1, ChanOp.peek 2 0, ChanOp.skip 1]⟩

/-- Claim C2: on any valid buffer state, `push` writes exactly
`min availableWrite data.length` samples - the leading samples of the offered
batch - silently drops the rest, reports the number written (so the whole
batch when it fits), and never writes storage out of bounds. -/
theorem C2_push_overflow_policy (rb : RingBuffer) (data : List ℚ) (hv : rb.Valid) :
    (rb.push data).1 = min rb.availableWrite data.length ∧
    (rb.push data).2.contents = rb.contents ++ data.take (min rb.availableWrite data.length) ∧
    (∀ j, rb.capacity ≤ j → (rb.push data).2.storage j = rb.storage j) := by
  obtain ⟨h1, _, _, _, h5, h6⟩ := rb.push_spec data hv
  exact ⟨h1, h5, h6⟩

theorem C2_push_overflow_policy_witness :
    (initBuffer 4).Valid ∧
    (((initBuffer 4).push [1, 2, 3, 4, 5]).1
        = min (initBuffer 4).availableWrite ([1, 2, 3, 4, 5] : List ℚ).length ∧
     ((initBuffer 4).push [1, 2, 3, 4, 5]).2.contents
        = (initBuffer 4).contents
          ++ ([1, 2, 3, 4, 5] : List ℚ).take
               (min (initBuffer 4).availableWrite ([1, 2, 3, 4, 5] : List ℚ).length) ∧
     (∀ j, (initBuffer 4).capacity ≤ j →
        ((initBuffer 4).push [1, 2, 3, 4, 5]).2.storage j = (initBuffer 4).storage j)) :=
  ⟨by decide, C2_push_overflow_policy (initBuffer 4) [1, 2, 3, 4, 5] (by decide)⟩

/-- Claim C3: for any sequence of push and pull calls starting from a fresh
channel, in which no push exceeds the free space at the moment it runs, the
concatenation of everything returned by pull is a prefix of the concatenation
of everything handed to push, in push order. -/
theorem C3_round_trip_order (cap : Nat) (hcap : 1 ≤ cap) (ops : List ChanOp)
    (hpp : ∀ op ∈ ops, op.isPushOrPull = true)
    (hno : noOverflowB (initBuffer cap) ops = true) :
    ∃ rest, (runLog (initBuffer cap) ops).2.1
      = (runLog (initBuffer cap) ops).2.2 ++ rest := by
  have h := runLog_balance ops (initBuffer cap) (initBuffer_valid cap hcap) hpp hno
  rw [initBuffer_contents, List.nil_append] at h
  exact ⟨(runLog (initBuffer cap) ops).1.contents, h.symm⟩

theorem C3_round_trip_order_witness :
    (∀ op ∈ [ChanOp.push [5, 6], ChanOp.pull 1, ChanOp.push [7], ChanOp.pull 4],
        op.isPushOrPull = true) ∧
    noOverflowB (initBuffer 4)
      [ChanOp.push [5, 6], ChanOp.pull 1, ChanOp.push [7], ChanOp.pull 4] = true ∧
    ∃ rest,
      (runLog (initBuffer 4)
        [ChanOp.push [5, 6], ChanOp.pull 1, ChanOp.push [7], ChanOp.pull 4]).2.1
      = (runLog (initBuffer 4)
        [ChanOp.push [5, 6], ChanOp.pull 1, ChanOp.push [7], ChanOp.pull 4]).2.2 ++ rest :=
  ⟨by decide, by decide,
   C3_round_trip_order 4 (by norm_num) _ (by decide) (by decide)⟩

/-- Claim C4: `peek` is non-consuming - it returns up to `outLen` unread
samples starting `offset` past the read position, changes neither index, and
leaves the unread queue exactly as it was. -/
theorem C4_peek_non_consuming (rb : RingBuffer) (outLen offset : Nat) (hv : rb.Valid) :
    (rb.peek outLen offset).1 = (rb.contents.drop offset).take outLen ∧
    (rb.peek outLen offset).2.writeIndex = rb.writeIndex ∧
    (rb.peek outLen offset).2.readIndex = rb.readIndex ∧
    (rb.peek outLen offset).2.contents = rb.contents := by
  obtain ⟨h1, h2⟩ := rb.peek_spec outLen offset hv
  exact ⟨h1, by rw [h2], by rw [h2], by rw [h2]⟩

theorem C4_peek_non_consuming_witness :
    (((initBuffer 4).push [1, 2, 3]).2.Valid) ∧
    ((((initBuffer 4).push [1, 2, 3]).2.peek 2 1).1
        = ((((initBuffer 4).push [1, 2, 3]).2.contents).drop 1).take 2 ∧
     (((initBuffer 4).push [1, 2, 3]).2.peek 2 1).2.writeIndex
        = ((initBuffer 4).push [1, 2, 3]).2.writeIndex ∧
     (((initBuffer 4).push [1, 2, 3]).2.peek 2 1).2.readIndex
        = ((initBuffer 4).push [1, 2, 3]).2.readIndex ∧
     (((initBuffer 4).push [1, 2, 3]).2.peek 2 1).2.contents
        = ((initBuffer 4).push [1, 2, 3]).2.contents) :=
  ⟨by decide, C4_peek_non_consuming ((initBuffer 4).push [1, 2, 3]).2 2 1 (by decide)⟩

/-!
## Note decoder (src/src/workers/Processor.worker.ts, lines 311-470)

Per-pitch hysteresis state machine.  `activeNotes` is a JavaScript `Map`
keyed by MIDI note, modelled as an insertion-ordered association list with
update-in-place `set`, `delete` and ordered iteration, exactly the Map
semantics the worker relies on.  Probabilities and times are rationals.
-/

structure ActiveNoteState where
  pitch : Nat
  startTime : ℚ
  startFrame : Nat
  peakProbability : ℚ
  velocityEstimate : ℚ
  deriving DecidableEq

structure DetectedNote where
  pitch : Nat
  startTime : ℚ
  endTime : Option ℚ
  duration : ℚ
  velocity : ℤ
  confidence : ℚ
  isActive : Bool
  deriving DecidableEq

/-- JavaScript `Map.get`. -/
def mapGet (m : List (Nat × ActiveNoteState)) (k : Nat) : Option ActiveNoteState :=
  (m.find? (fun e => e.1 == k)).map (·.2)

/-- JavaScript `Map.set`: updates in place when the key exists (keeping its
position), otherwise appends at the end. -/
def mapSet (m : List (Nat × ActiveNoteState)) (k : Nat) (v : ActiveNoteState) :
    List (Nat × ActiveNoteState) :=
  if m.any (fun e => e.1 == k) then m.map (fun e => if e.1 == k then (e.1, v) else e)
  else m ++ [(k, v)]

/-- JavaScript `Map.delete`. -/
def mapDelete (m : List (Nat × ActiveNoteState)) (k : Nat) : List (Nat × ActiveNoteState) :=
  m.filter (fun e => !(e.1 == k))

structure NoteDecoder where
  activeNotes : List (Nat × ActiveNoteState)
  onsetThreshold : ℚ
  offsetThreshold : ℚ
  minDurationSeconds : ℚ
  sampleRate : ℚ
  hopSize : ℚ

/-- The loop body of NoteDecoder.processFrame (Processor.worker.ts,
lines 351-397) for one pitch: offset check / peak update when active,
onset check when inactive. -/
def decodeStep (dec : NoteDecoder) (m : List (Nat × ActiveNoteState)) (pitch : Nat)
    (prob onsetProb : ℚ) (frameIndex : Nat) (frameTime : ℚ) :
    List (Nat × ActiveNoteState) × Option DetectedNote :=
  let midiNote := pitch + 21
  match mapGet m midiNote with
  | some activeNote =>
    if prob < dec.offsetThreshold then
      let duration := frameTime - activeNote.startTime
      if dec.minDurationSeconds ≤ duration then
        (mapDelete m midiNote,
         some { pitch := midiNote, startTime := activeNote.startTime,
                endTime := some frameTime, duration := duration,
                velocity := roundJS (activeNote.velocityEstimate * 127),
                confidence := activeNote.peakProbability, isActive := false })
      else (mapDelete m midiNote, none)
    else
      if activeNote.peakProbability < prob then
        (mapSet m midiNote { activeNote with peakProbability := prob }, none)
      else (m, none)
  | none =>
    if dec.onsetThreshold ≤ onsetProb ∨ dec.onsetThreshold ≤ prob then
      (mapSet m midiNote
        { pitch := midiNote, startTime := frameTime, startFrame := frameIndex,
          peakProbability := prob, velocityEstimate := onsetProb }, none)
    else (m, none)

/-- Accumulating step of the pitch loop: completed notes are appended in
pitch order. -/
def frameStep (dec : NoteDecoder) (frameProbabilities : Nat → ℚ)
    (onsetProbabilities : Option (Nat → ℚ)) (frameIndex : Nat) (frameTime : ℚ)
    (acc : List (Nat × ActiveNoteState) × List DetectedNote) (pitch : Nat) :
    List (Nat × ActiveNoteState) × List DetectedNote :=
  let prob := frameProbabilities pitch
  let onsetProb := match onsetProbabilities with
    | some o => o pitch
    | none => prob
  let step := decodeStep dec acc.1 pitch prob onsetProb frameIndex frameTime
  (step.1, acc.2 ++ step.2.toList)

/-- NoteDecoder.processFrame (Processor.worker.ts, lines 336-398): runs the
hysteresis step over all 88 piano keys at
`frameTime = baseTimestamp + frameIndex * hopSize / sampleRate`. -/
def NoteDecoder.processFrame (dec : NoteDecoder) (frameProbabilities : Nat → ℚ)
    (onsetProbabilities : Option (Nat → ℚ)) (frameIndex : Nat) (baseTimestamp : ℚ) :
    NoteDecoder × List DetectedNote :=
  let frameTime := baseTimestamp + (frameIndex * dec.hopSize) / dec.sampleRate
  let r := (List.range 88).foldl
    (frameStep dec frameProbabilities onsetProbabilities frameIndex frameTime)
    (dec.activeNotes, [])
  ({ dec with activeNotes := r.1 }, r.2)

/-- NoteDecoder.closeAllNotes (Processor.worker.ts, lines 426-446): every
active note is closed at `endTime`; notes shorter than the minimum duration
are discarded; the map is cleared. -/
def NoteDecoder.closeAllNotes (dec : NoteDecoder) (endTime : ℚ) :
    NoteDecoder × List DetectedNote :=
  let closed := dec.activeNotes.filterMap (fun e =>
    let duration := endTime - e.2.startTime
    if dec.minDurationSeconds ≤ duration then
      some { pitch := e.1, startTime := e.2.startTime, endTime := some endTime,
             duration := duration, velocity := roundJS (e.2.velocityEstimate * 127),
             confidence := e.2.peakProbability, isActive := false }
    else none)
  ({ dec with activeNotes := [] }, closed)

/-- Frame timestamp used by processFrame. -/
def frameTimeOf (dec : NoteDecoder) (baseTimestamp : ℚ) (frameIndex : Nat) : ℚ :=
  baseTimestamp + (frameIndex * dec.hopSize) / dec.sampleRate

/-- The decoder's single-pitch machine run over a probability trace with
null onset probabilities (so `onsetProb = probability`, as in the worker's
fallback path), one frame per sample, collecting completed notes. -/
def runPitchTrace (dec : NoteDecoder) (pitch : Nat) (baseTimestamp : ℚ) :
    List (Nat × ActiveNoteState) → Nat → List ℚ →
      List (Nat × ActiveNoteState) × List DetectedNote
  | m, _, [] => (m, [])
  | m, i, p :: ps =>
    let step := decodeStep dec m pitch p p i (frameTimeOf dec baseTimestamp i)
    let rest := runPitchTrace dec pitch baseTimestamp step.1 (i + 1) ps
    (rest.1, step.2.toList ++ rest.2)

section DecoderLemmas

lemma runPitchTrace_nil (dec : NoteDecoder) (pitch : Nat) (base : ℚ)
    (m : List (Nat × ActiveNoteState)) (i : Nat) :
    runPitchTrace dec pitch base m i [] = (m, []) := rfl

lemma runPitchTrace_cons (dec : NoteDecoder) (pitch : Nat) (base : ℚ)
    (m : List (Nat × ActiveNoteState)) (i : Nat) (p : ℚ) (ps : List ℚ) :
    runPitchTrace dec pitch base m i (p :: ps)
      = ((runPitchTrace dec pitch base
            (decodeStep dec m pitch p p i (frameTimeOf dec base i)).1 (i + 1) ps).1,
         (decodeStep dec m pitch p p i (frameTimeOf dec base i)).2.toList
           ++ (runPitchTrace dec pitch base
                (decodeStep dec m pitch p p i (frameTimeOf dec base i)).1 (i + 1) ps).2) := rfl

lemma decodeStep_onset (dec : NoteDecoder) (m : List (Nat × ActiveNoteState)) (pitch : Nat)
    (prob onsetProb : ℚ) (i : Nat) (t : ℚ)
    (hm : mapGet m (pitch + 21) = none)
    (h : dec.onsetThreshold ≤ onsetProb ∨ dec.onsetThreshold ≤ prob) :
    decodeStep dec m pitch prob onsetProb i t
      = (mapSet m (pitch + 21)
          { pitch := pitch + 21, startTime := t, startFrame := i,
            peakProbability := prob, velocityEstimate := onsetProb }, none) := by
  unfold decodeStep
  simp only [hm]
  rw [if_pos h]

lemma decodeStep_idle (dec : NoteDecoder) (m : List (Nat × ActiveNoteState)) (pitch : Nat)
    (prob onsetProb : ℚ) (i : Nat) (t : ℚ)
    (hm : mapGet m (pitch + 21) = none)
    (h : ¬(dec.onsetThreshold ≤ onsetProb ∨ dec.onsetThreshold ≤ prob)) :
    decodeStep dec m pitch prob onsetProb i t = (m, none) := by
  unfold decodeStep
  simp only [hm]
  rw [if_neg h]

lemma decodeStep_stay (dec : NoteDecoder) (m : List (Nat × ActiveNoteState)) (pitch : Nat)
    (prob onsetProb : ℚ) (i : Nat) (t : ℚ) (st : ActiveNoteState)
    (hm : mapGet m (pitch + 21) = some st)
    (h : ¬ prob < dec.offsetThreshold) :
    decodeStep dec m pitch prob onsetProb i t
      = (if st.peakProbability < prob
           then mapSet m (pitch + 21) { st with peakProbability := prob } else m, none) := by
  unfold decodeStep
  simp only [hm]
  rw [if_neg h]
  split_ifs <;> rfl

lemma decodeStep_close (dec : NoteDecoder) (m : List (Nat × ActiveNoteState)) (pitch : Nat)
    (prob onsetProb : ℚ) (i : Nat) (t : ℚ) (st : ActiveNoteState)
    (hm : mapGet m (pitch + 21) = some st)
    (h : prob < dec.offsetThreshold)
    (hd : dec.minDurationSeconds ≤ t - st.startTime) :
    decodeStep dec m pitch prob onsetProb i t
      = (mapDelete m (pitch + 21),
         some { pitch := pitch + 21, startTime := st.startTime, endTime := some t,
                duration := t - st.startTime,
                velocity := roundJS (st.velocityEstimate * 127),
                confidence := st.peakProbability, isActive := false }) := by
  unfold decodeStep
  simp only [hm]
  rw [if_pos h, if_pos hd]

lemma decodeStep_close_short (dec : NoteDecoder) (m : List (Nat × ActiveNoteState)) (pitch : Nat)
    (prob onsetProb : ℚ) (i : Nat) (t : ℚ) (st : ActiveNoteState)
    (hm : mapGet m (pitch + 21) = some st)
    (h : prob < dec.offsetThreshold)
    (hd : ¬ dec.minDurationSeconds ≤ t - st.startTime) :
    decodeStep dec m pitch prob onsetProb i t = (mapDelete m (pitch + 21), none) := by
  unfold decodeStep
  simp only [hm]
  rw [if_pos h, if_neg hd]

lemma mapGet_nil (k : Nat) : mapGet [] k = none := rfl

lemma mapGet_singleton (k : Nat) (v : ActiveNoteState) : mapGet [(k, v)] k = some v := by
  simp [mapGet]

lemma mapSet_nil (k : Nat) (v : ActiveNoteState) : mapSet [] k v = [(k, v)] := rfl

lemma mapSet_singleton (k : Nat) (v v' : ActiveNoteState) :
    mapSet [(k, v)] k v' = [(k, v')] := by
  simp [mapSet]

lemma mapDelete_singleton (k : Nat) (v : ActiveNoteState) : mapDelete [(k, v)] k = [] := by
  simp [mapDelete]

lemma runPitchTrace_silent (dec : NoteDecoder) (pitch : Nat) (base : ℚ) (ps : List ℚ) :
    ∀ i, (∀ p ∈ ps, p < dec.onsetThreshold) →
      runPitchTrace dec pitch base [] i ps = ([], []) := by
  induction ps with
  | nil => intro i _; rfl
  | cons p ps ih =>
    intro i h
    have hp := h p (List.mem_cons_self _ _)
    have hstep := decodeStep_idle dec [] pitch p p i (frameTimeOf dec base i)
      (mapGet_nil _) (by push_neg; exact ⟨hp, hp⟩)
    rw [runPitchTrace_cons, hstep, ih (i + 1) (fun q hq => h q (List.mem_cons_of_mem _ hq))]
    rfl

lemma runPitchTrace_active (dec : NoteDecoder) (pitch : Nat) (base : ℚ) (ps : List ℚ) :
    ∀ i (st : ActiveNoteState), (∀ p ∈ ps, dec.offsetThreshold ≤ p) →
      ∃ st' : ActiveNoteState,
        runPitchTrace dec pitch base [(pitch + 21, st)] i ps = ([(pitch + 21, st')], [])
          ∧ st'.startTime = st.startTime
          ∧ st'.velocityEstimate = st.velocityEstimate := by
  induction ps with
  | nil => intro i st _; exact ⟨st, rfl, rfl, rfl⟩
  | cons p ps ih =>
    intro i st h
    have hp := h p (List.mem_cons_self _ _)
    have hstep := decodeStep_stay dec [(pitch + 21, st)] pitch p p i
      (frameTimeOf dec base i) st (mapGet_singleton _ _) (not_lt.mpr hp)
    by_cases hpk : st.peakProbability < p
    · rw [if_pos hpk, mapSet_singleton] at hstep
      obtain ⟨st', heq, h1, h2⟩ := ih (i + 1) { st with peakProbability := p }
        (fun q hq => h q (List.mem_cons_of_mem _ hq))
      refine ⟨st', ?_, h1, h2⟩
      rw [runPitchTrace_cons, hstep, heq]
      rfl
    · rw [if_neg hpk] at hstep
      obtain ⟨st', heq, h1, h2⟩ := ih (i + 1) st (fun q hq => h q (List.mem_cons_of_mem _ hq))
      refine ⟨st', ?_, h1, h2⟩
      rw [runPitchTrace_cons, hstep, heq]
      rfl

end DecoderLemmas

section HysteresisClaims

lemma runPitchTrace_append (dec : NoteDecoder) (pitch : Nat) (base : ℚ) (xs ys : List ℚ) :
    ∀ (m : List (Nat × ActiveNoteState)) (i : Nat),
      runPitchTrace dec pitch base m i (xs ++ ys)
        = ((runPitchTrace dec pitch base (runPitchTrace dec pitch base m i xs).1
              (i + xs.length) ys).1,
           (runPitchTrace dec pitch base m i xs).2
             ++ (runPitchTrace dec pitch base (runPitchTrace dec pitch base m i xs).1
                  (i + xs.length) ys).2) := by
  induction xs with
  | nil =>
    intro m i
    rw [List.nil_append, runPitchTrace_nil]
    simp
  | cons x xs ih =>
    intro m i
    rw [List.cons_append, runPitchTrace_cons, runPitchTrace_cons, ih]
    rw [show i + 1 + xs.length = i + (xs.length + 1) by omega]
    simp [List.append_assoc, List.length_cons]

/-- Claim C5: with hysteresis thresholds `offset ≤ onset`, a single-pitch
probability trace that stays below the onset threshold, then reaches it, dips
while staying at or above the offset threshold, then falls below the offset
threshold and stays below to the end, yields exactly one completed note; its
start time is the first frame reaching the onset threshold and its end time
is the first frame falling below the offset threshold, provided the active
span lasts at least `minNoteDuration`. -/
theorem C5_hysteresis_single_note (dec : NoteDecoder) (pitch : Nat) (base : ℚ)
    (pre mid post : List ℚ) (m0 q : ℚ)
    (hthr : dec.offsetThreshold ≤ dec.onsetThreshold)
    (hpre : ∀ p ∈ pre, p < dec.onsetThreshold)
    (honset : dec.onsetThreshold ≤ m0)
    (hmid : ∀ p ∈ m0 :: mid, dec.offsetThreshold ≤ p)
    (hpost : ∀ p ∈ q :: post, p < dec.offsetThreshold)
    (hdur : dec.minDurationSeconds ≤
      frameTimeOf dec base (pre.length + (1 + mid.length)) - frameTimeOf dec base pre.length) :
    ∃ note : DetectedNote,
      (runPitchTrace dec pitch base [] 0 ((pre ++ (m0 :: mid)) ++ (q :: post))).2 = [note]
        ∧ note.pitch = pitch + 21
        ∧ note.startTime = frameTimeOf dec base pre.length
        ∧ note.endTime = some (frameTimeOf dec base (pre.length + (1 + mid.length))) := by
  have hpre_run : runPitchTrace dec pitch base [] 0 pre = ([], []) :=
    runPitchTrace_silent dec pitch base pre 0 hpre
  set st0 : ActiveNoteState :=
    { pitch := pitch + 21, startTime := frameTimeOf dec base pre.length,
      startFrame := pre.length, peakProbability := m0, velocityEstimate := m0 } with hst0
  have honset_step := decodeStep_onset dec [] pitch m0 m0 pre.length
    (frameTimeOf dec base pre.length) rfl (Or.inr honset)
  obtain ⟨st', hmid_run, hstart, hvel⟩ :=
    runPitchTrace_active dec pitch base mid (pre.length + 1) st0
      (fun p hp => hmid p (List.mem_cons_of_mem _ hp))
  have hseg2 : runPitchTrace dec pitch base [] pre.length (m0 :: mid)
      = ([(pitch + 21, st')], []) := by
    rw [runPitchTrace_cons, honset_step]
    simp only [mapSet_nil]
    rw [← hst0, hmid_run]
    rfl
  have hseg12 : runPitchTrace dec pitch base [] 0 (pre ++ (m0 :: mid))
      = ([(pitch + 21, st')], []) := by
    rw [runPitchTrace_append dec pitch base pre (m0 :: mid) [] 0, hpre_run]
    simp only []
    rw [show (0 : Nat) + pre.length = pre.length by omega, hseg2]
    rfl
  have hdur' : dec.minDurationSeconds ≤
      frameTimeOf dec base (pre.length + (1 + mid.length)) - st'.startTime := by
    rw [hstart]
    exact hdur
  have hq := hpost q (List.mem_cons_self _ _)
  have hclose := decodeStep_close dec [(pitch + 21, st')] pitch q q
    (pre.length + (1 + mid.length)) (frameTimeOf dec base (pre.length + (1 + mid.length)))
    st' (mapGet_singleton _ _) hq hdur'
  have hpost_run : runPitchTrace dec pitch base []
      (pre.length + (1 + mid.length) + 1) post = ([], []) :=
    runPitchTrace_silent dec pitch base post _
      (fun p hp => lt_of_lt_of_le (hpost p (List.mem_cons_of_mem _ hp)) hthr)
  refine ⟨{ pitch := pitch + 21, startTime := st'.startTime,
            endTime := some (frameTimeOf dec base (pre.length + (1 + mid.length))),
            duration := frameTimeOf dec base (pre.length + (1 + mid.length)) - st'.startTime,
            velocity := roundJS (st'.velocityEstimate * 127),
            confidence := st'.peakProbability, isActive := false }, ?_, rfl, ?_, rfl⟩
  · rw [runPitchTrace_append dec pitch base (pre ++ (m0 :: mid)) (q :: post) [] 0, hseg12]
    simp only []
    rw [show (0 : Nat) + (pre ++ (m0 :: mid)).length = pre.length + (1 + mid.length) by
          simp [List.length_append]; omega]
    rw [runPitchTrace_cons, hclose]
    simp only [mapDelete_singleton]
    rw [hpost_run]
    rfl
  · rw [hstart]

end HysteresisClaims

section MinDurationClaims

lemma decodeStep_duration (dec : NoteDecoder) (m : List (Nat × ActiveNoteState)) (pitch : Nat)
    (prob onsetProb : ℚ) (i : Nat) (t : ℚ) (note : DetectedNote)
    (h : (decodeStep dec m pitch prob onsetProb i t).2 = some note) :
    dec.minDurationSeconds ≤ note.duration := by
  cases hm : mapGet m (pitch + 21) with
  | none =>
    by_cases hc : dec.onsetThreshold ≤ onsetProb ∨ dec.onsetThreshold ≤ prob
    · rw [decodeStep_onset dec m pitch prob onsetProb i t hm hc] at h
      exact absurd h (by simp)
    · rw [decodeStep_idle dec m pitch prob onsetProb i t hm hc] at h
      exact absurd h (by simp)
  | some st =>
    by_cases h1 : prob < dec.offsetThreshold
    · by_cases h2 : dec.minDurationSeconds ≤ t - st.startTime
      · rw [decodeStep_close dec m pitch prob onsetProb i t st hm h1 h2] at h
        simp only [Option.some.injEq] at h
        subst h
        exact h2
      · rw [decodeStep_close_short dec m pitch prob onsetProb i t st hm h1 h2] at h
        exact absurd h (by simp)
    · rw [decodeStep_stay dec m pitch prob onsetProb i t st hm h1] at h
      exact absurd h (by simp)

lemma foldl_frameStep_duration (dec : NoteDecoder) (probs : Nat → ℚ)
    (onsets : Option (Nat → ℚ)) (idx : Nat) (t : ℚ) (l : List Nat) :
    ∀ acc : List (Nat × ActiveNoteState) × List DetectedNote,
      (∀ n ∈ acc.2, dec.minDurationSeconds ≤ n.duration) →
      ∀ n ∈ (l.foldl (frameStep dec probs onsets idx t) acc).2,
        dec.minDurationSeconds ≤ n.duration := by
  induction l with
  | nil => intro acc hacc; exact hacc
  | cons p l ih =>
    intro acc hacc
    rw [List.foldl_cons]
    apply ih
    intro n hn
    simp only [frameStep, List.mem_append] at hn
    rcases hn with hn | hn
    · exact hacc n hn
    · rw [Option.mem_toList, Option.mem_def] at hn
      exact decodeStep_duration dec acc.1 p _ _ idx t n hn

lemma processFrame_min_duration (dec : NoteDecoder) (probs : Nat → ℚ)
    (onsets : Option (Nat → ℚ)) (idx : Nat) (base : ℚ) (note : DetectedNote)
    (h : note ∈ (dec.processFrame probs onsets idx base).2) :
    dec.minDurationSeconds ≤ note.duration := by
  simp only [NoteDecoder.processFrame] at h
  exact foldl_frameStep_duration dec probs onsets idx _ (List.range 88)
    (dec.activeNotes, []) (by simp) note h

lemma closeAllNotes_min_duration (dec : NoteDecoder) (endTime : ℚ) (note : DetectedNote)
    (h : note ∈ (dec.closeAllNotes endTime).2) :
    dec.minDurationSeconds ≤ note.duration := by
  simp only [NoteDecoder.closeAllNotes, List.mem_filterMap] at h
  obtain ⟨e, _, he⟩ := h
  split_ifs at he with hd
  simp only [Option.some.injEq] at he
  subst he
  exact hd

lemma short_note_discarded (dec : NoteDecoder) (pitch : Nat) (base : ℚ)
    (pre mid post : List ℚ) (m0 q : ℚ)
    (hthr : dec.offsetThreshold ≤ dec.onsetThreshold)
    (hpre : ∀ p ∈ pre, p < dec.onsetThreshold)
    (honset : dec.onsetThreshold ≤ m0)
    (hmid : ∀ p ∈ m0 :: mid, dec.offsetThreshold ≤ p)
    (hpost : ∀ p ∈ q :: post, p < dec.offsetThreshold)
    (hdur : frameTimeOf dec base (pre.length + (1 + mid.length)) - frameTimeOf dec base pre.length
      < dec.minDurationSeconds) :
    (runPitchTrace dec pitch base [] 0 ((pre ++ (m0 :: mid)) ++ (q :: post))).2 = [] := by
  have hpre_run : runPitchTrace dec pitch base [] 0 pre = ([], []) :=
    runPitchTrace_silent dec pitch base pre 0 hpre
  set st0 : ActiveNoteState :=
    { pitch := pitch + 21, startTime := frameTimeOf dec base pre.length,
      startFrame := pre.length, peakProbability := m0, velocityEstimate := m0 } with hst0
  have honset_step := decodeStep_onset dec [] pitch m0 m0 pre.length
    (frameTimeOf dec base pre.length) rfl (Or.inr honset)
  obtain ⟨st', hmid_run, hstart, hvel⟩ :=
    runPitchTrace_active dec pitch base mid (pre.length + 1) st0
      (fun p hp => hmid p (List.mem_cons_of_mem _ hp))
  have hseg2 : runPitchTrace dec pitch base [] pre.length (m0 :: mid)
      = ([(pitch + 21, st')], []) := by
    rw [runPitchTrace_cons, honset_step]
    simp only [mapSet_nil]
    rw [← hst0, hmid_run]
    rfl
  have hseg12 : runPitchTrace dec pitch base [] 0 (pre ++ (m0 :: mid))
      = ([(pitch + 21, st')], []) := by
    rw [runPitchTrace_append dec pitch base pre (m0 :: mid) [] 0, hpre_run]
    simp only []
    rw [show (0 : Nat) + pre.length = pre.length by omega, hseg2]
    rfl
  have hdur' : ¬ dec.minDurationSeconds ≤
      frameTimeOf dec base (pre.length + (1 + mid.length)) - st'.startTime := by
    rw [hstart]
    exact not_le.mpr hdur
  have hq := hpost q (List.mem_cons_self _ _)
  have hclose := decodeStep_close_short dec [(pitch + 21, st')] pitch q q
    (pre.length + (1 + mid.length)) (frameTimeOf dec base (pre.length + (1 + mid.length)))
    st' (mapGet_singleton _ _) hq hdur'
  have hpost_run : runPitchTrace dec pitch base []
      (pre.length + (1 + mid.length) + 1) post = ([], []) :=
    runPitchTrace_silent dec pitch base post _
      (fun p hp => lt_of_lt_of_le (hpost p (List.mem_cons_of_mem _ hp)) hthr)
  rw [runPitchTrace_append dec pitch base (pre ++ (m0 :: mid)) (q :: post) [] 0, hseg12]
  simp only []
  rw [show (0 : Nat) + (pre ++ (m0 :: mid)).length = pre.length + (1 + mid.length) by
        simp [List.length_append]; omega]
  rw [runPitchTrace_cons, hclose]
  simp only [mapDelete_singleton]
  rw [hpost_run]
  rfl

end MinDurationClaims

/-- Concrete decoder with the worker's default configuration
(onset 0.8, offset 0.3, min duration 0.05 s, 22050 Hz, hop 256). -/
def decoderExample : NoteDecoder :=
  { activeNotes := [], onsetThreshold := 8/10, offsetThreshold := 3/10,
    minDurationSeconds := 1/20, sampleRate := 22050, hopSize := 256 }

theorem C5_hysteresis_single_note_witness :
    decoderExample.offsetThreshold ≤ decoderExample.onsetThreshold ∧
    decoderExample.onsetThreshold ≤ (9 : ℚ)/10 ∧
    decoderExample.minDurationSeconds ≤
      frameTimeOf decoderExample 0 (List.length ([] : List ℚ)
          + (1 + List.length [(1 : ℚ)/2, 1/2, 1/2, 1/2]))
        - frameTimeOf decoderExample 0 (List.length ([] : List ℚ)) ∧
    ∃ note : DetectedNote,
      (runPitchTrace decoderExample 39 0 [] 0
          ((([] : List ℚ) ++ ((9/10 : ℚ) :: [1/2, 1/2, 1/2, 1/2])) ++ ((0 : ℚ) :: [0]))).2
        = [note]
        ∧ note.pitch = 39 + 21
        ∧ note.startTime = frameTimeOf decoderExample 0 (List.length ([] : List ℚ))
        ∧ note.endTime = some (frameTimeOf decoderExample 0 (List.length ([] : List ℚ)
            + (1 + List.length [(1 : ℚ)/2, 1/2, 1/2, 1/2]))) :=
  ⟨by norm_num [decoderExample], by norm_num [decoderExample],
   by norm_num [decoderExample, frameTimeOf],
   C5_hysteresis_single_note decoderExample 39 0 [] [1/2, 1/2, 1/2, 1/2] [0] (9/10) 0
     (by norm_num [decoderExample]) (by simp) (by norm_num [decoderExample])
     (by norm_num [decoderExample, List.forall_mem_cons])
     (by norm_num [decoderExample, List.forall_mem_cons])
     (by norm_num [decoderExample, frameTimeOf])⟩

/-- Claim C6: every completed note emitted by `processFrame` and every note
returned by `closeAllNotes` lasts at least `minNoteDuration`; in particular a
single-pitch trace whose active span (onset to first below-offset frame) is
shorter than `minNoteDuration` produces no notes at all. -/
theorem C6_min_duration_filter :
    (∀ (dec : NoteDecoder) (probs : Nat → ℚ) (onsets : Option (Nat → ℚ))
        (idx : Nat) (base : ℚ) (note : DetectedNote),
        note ∈ (dec.processFrame probs onsets idx base).2 →
          dec.minDurationSeconds ≤ note.duration) ∧
    (∀ (dec : NoteDecoder) (endTime : ℚ) (note : DetectedNote),
        note ∈ (dec.closeAllNotes endTime).2 → dec.minDurationSeconds ≤ note.duration) ∧
    (∀ (dec : NoteDecoder) (pitch : Nat) (base : ℚ) (pre mid post : List ℚ) (m0 q : ℚ),
        dec.offsetThreshold ≤ dec.onsetThreshold →
        (∀ p ∈ pre, p < dec.onsetThreshold) →
        dec.onsetThreshold ≤ m0 →
        (∀ p ∈ m0 :: mid, dec.offsetThreshold ≤ p) →
        (∀ p ∈ q :: post, p < dec.offsetThreshold) →
        frameTimeOf dec base (pre.length + (1 + mid.length)) - frameTimeOf dec base pre.length
          < dec.minDurationSeconds →
        (runPitchTrace dec pitch base [] 0 ((pre ++ (m0 :: mid)) ++ (q :: post))).2 = []) :=
  ⟨fun dec probs onsets idx base note h =>
      processFrame_min_duration dec probs onsets idx base note h,
   fun dec endTime note h => closeAllNotes_min_duration dec endTime note h,
   fun dec pitch base pre mid post m0 q h1 h2 h3 h4 h5 h6 =>
      short_note_discarded dec pitch base pre mid post m0 q h1 h2 h3 h4 h5 h6⟩

/-- Concrete decoder holding one active note, for exercising closeAllNotes. -/
def decoderWithActive : NoteDecoder :=
  { activeNotes :=
      [(60, { pitch := 60, startTime := 0, startFrame := 0,
              peakProbability := 9/10, velocityEstimate := 9/10 })],
    onsetThreshold := 8/10, offsetThreshold := 3/10,
    minDurationSeconds := 1/20, sampleRate := 22050, hopSize := 256 }

theorem C6_min_duration_filter_witness :
    (({ pitch := 60, startTime := 0, endTime := some 1, duration := 1 - 0,
         velocity := roundJS ((9 : ℚ)/10 * 127), confidence := 9/10,
         isActive := false } : DetectedNote)
      ∈ (decoderWithActive.closeAllNotes 1).2) ∧
    decoderWithActive.minDurationSeconds ≤
      ({ pitch := 60, startTime := 0, endTime := some 1, duration := 1 - 0,
         velocity := roundJS ((9 : ℚ)/10 * 127), confidence := 9/10,
         isActive := false } : DetectedNote).duration ∧
    (runPitchTrace decoderExample 39 0 [] 0
        ((([] : List ℚ) ++ ((9/10 : ℚ) :: [])) ++ ((0 : ℚ) :: [0]))).2 = [] :=
  ⟨by norm_num [NoteDecoder.closeAllNotes, decoderWithActive],
   C6_min_duration_filter.2.1 decoderWithActive 1 _
     (by norm_num [NoteDecoder.closeAllNotes, decoderWithActive]),
   C6_min_duration_filter.2.2 decoderExample 39 0 [] [] [0] (9/10) 0
     (by norm_num [decoderExample]) (by simp) (by norm_num [decoderExample])
     (by norm_num [decoderExample, List.forall_mem_cons])
     (by norm_num [decoderExample, List.forall_mem_cons])
     (by norm_num [decoderExample, frameTimeOf])⟩

/-!
## Quantizer (src/src/music/Quantizer.ts)

Beat estimation (`BeatDetector`) and note quantization (`NoteQuantizer`).
The duration grid, snapping, duration typing and tie-chain creation follow
the source line by line; JS `Map` insertion-order iteration in the interval
histogram is modelled by an ordered association list.

The source's canonical-range folding loops (`while (bpm < 60) bpm *= 2` and
`while (bpm > 180) bpm /= 2`) diverge for a non-positive bpm, which cannot
occur since `bpm = 60 / dominantInterval` with `dominantInterval ≥ 0.2`; the
total functions below add the (unreachable) guard `0 < b` and return `b`
unchanged in that impossible case.
-/

/-- NoteDurationType ('whole' | 'half' | 'quarter' | 'eighth' | '16th' |
'32nd' | '64th', src/unnamed/part_005). -/
inductive NoteDurationType where
  | whole
  | half
  | quarter
  | eighth
  | sixteenth
  | thirtySecond
  | sixtyFourth
  deriving DecidableEq

structure TimeSignature where
  beats : ℚ
  beatType : ℚ
  deriving DecidableEq

structure QuantizerConfig where
  bpm : ℚ
  timeSignature : TimeSignature
  snapTolerance : ℚ
  minQuantization : ℚ
  detectTriplets : Bool
  deriving DecidableEq

structure QuantizedNote where
  pitch : Nat
  startBeat : ℚ
  durationBeats : ℚ
  durationType : NoteDurationType
  isDotted : Bool
  velocity : ℤ
  tieToNext : Bool
  deriving DecidableEq

/-- DURATION_GRID (Quantizer.ts, lines 21-29). -/
def DURATION_GRID : List (NoteDurationType × ℚ) :=
  [(NoteDurationType.whole, 4), (NoteDurationType.half, 2), (NoteDurationType.quarter, 1),
   (NoteDurationType.eighth, 1/2), (NoteDurationType.sixteenth, 1/4),
   (NoteDurationType.thirtySecond, 1/8), (NoteDurationType.sixtyFourth, 1/16)]

def DEFAULT_CONFIG : QuantizerConfig :=
  { bpm := 120, timeSignature := { beats := 4, beatType := 4 },
    snapTolerance := 3/10, minQuantization := 1/16, detectTriplets := false }

/-- BeatDetector.addOnset (Quantizer.ts, lines 69-76): push, then shift the
oldest element when more than 100 are stored. -/
def addOnset (onsetTimes : List ℚ) (time : ℚ) : List ℚ :=
  let o := onsetTimes ++ [time]
  if 100 < o.length then o.drop 1 else o

/-- Consecutive inter-onset intervals (Quantizer.ts, lines 87-90). -/
def intervalsOf (onsetTimes : List ℚ) : List ℚ :=
  List.zipWith (fun a b => a - b) onsetTimes.tail onsetTimes

/-- The interval filter (Quantizer.ts, lines 93-97): keep 0.2 s to 2.0 s. -/
def validIntervalsOf (intervals : List ℚ) : List ℚ :=
  intervals.filter (fun i => decide (1/5 ≤ i) && decide (i ≤ 2))

/-- One `histogram.set(bin, (histogram.get(bin) || 0) + 1)` step on the
insertion-ordered histogram. -/
def bumpBin (h : List (ℤ × Nat)) (bin : ℤ) : List (ℤ × Nat) :=
  if h.any (fun e => e.1 == bin) then h.map (fun e => if e.1 == bin then (e.1, e.2 + 1) else e)
  else h ++ [(bin, 1)]

/-- The 50 ms-bin histogram of valid intervals (Quantizer.ts, lines 104-110). -/
def histogramOf (validIntervals : List ℚ) : List (ℤ × Nat) :=
  validIntervals.foldl (fun h i => bumpBin h (roundJS (i / (1/20)))) []

/-- The `histogram.forEach` maximum scan (Quantizer.ts, lines 112-120):
first-encountered bin wins ties; result is `(maxCount, dominantBin)`. -/
def argmaxBin (h : List (ℤ × Nat)) : Nat × ℤ :=
  h.foldl (fun acc e => if acc.1 < e.2 then (e.2, e.1) else acc) (0, 0)

/-- The `while (bpm < 60) bpm *= 2` loop (Quantizer.ts, line 126). -/
def normalizeUp (b : ℚ) : ℚ :=
  if h : 0 < b ∧ b < 60 then normalizeUp (2 * b) else b
termination_by (⌈60 / b⌉).toNat
decreasing_by
  have hx : (1 : ℚ) < 60 / b := (one_lt_div h.1).mpr h.2
  have h1 : (2 : ℤ) ≤ ⌈60 / b⌉ := by
    have := Int.le_ceil (60 / b)
    have h2 : (1 : ℤ) < ⌈60 / b⌉ := by
      rw [Int.lt_ceil]
      push_cast
      exact hx
    omega
  have h3 : ⌈60 / (2 * b)⌉ ≤ ⌈60 / b⌉ - 1 := by
    have hb2 : 60 / (2 * b) = (60 / b) / 2 := by
      rw [div_div]
      ring_nf
    have hle : 60 / (2 * b) ≤ (⌈60 / b⌉ : ℚ) - 1 := by
      rw [hb2]
      have hc := Int.le_ceil (60 / b)
      have : (60 / b) / 2 ≤ (⌈60 / b⌉ : ℚ) / 2 := by linarith
      have h4 : ((2 : ℤ) : ℚ) ≤ (⌈60 / b⌉ : ℚ) := by exact_mod_cast h1
      push_cast at h4 ⊢
      linarith
    calc ⌈60 / (2 * b)⌉ ≤ ⌈(⌈60 / b⌉ : ℚ) - 1⌉ := Int.ceil_le_ceil hle
    _ = ⌈60 / b⌉ - 1 := by
        rw [show ((⌈60 / b⌉ : ℚ) - 1) = ((⌈60 / b⌉ - 1 : ℤ) : ℚ) by push_cast; ring,
            Int.ceil_intCast]
  omega

/-- The `while (bpm > 180) bpm /= 2` loop (Quantizer.ts, line 127). -/
def normalizeDown (b : ℚ) : ℚ :=
  if h : 180 < b then normalizeDown (b / 2) else b
termination_by (⌈b / 180⌉).toNat
decreasing_by
  have hx : (1 : ℚ) < b / 180 := (one_lt_div (by norm_num)).mpr h
  have h1 : (2 : ℤ) ≤ ⌈b / 180⌉ := by
    have h2 : (1 : ℤ) < ⌈b / 180⌉ := by
      rw [Int.lt_ceil]
      push_cast
      exact hx
    omega
  have h3 : ⌈b / 2 / 180⌉ ≤ ⌈b / 180⌉ - 1 := by
    have hb2 : b / 2 / 180 = (b / 180) / 2 := by
      rw [div_div, div_div]
      ring_nf
    have hle : b / 2 / 180 ≤ (⌈b / 180⌉ : ℚ) - 1 := by
      rw [hb2]
      have hc := Int.le_ceil (b / 180)
      have h4 : ((2 : ℤ) : ℚ) ≤ (⌈b / 180⌉ : ℚ) := by exact_mod_cast h1
      push_cast at h4 ⊢
      linarith
    calc ⌈b / 2 / 180⌉ ≤ ⌈(⌈b / 180⌉ : ℚ) - 1⌉ := Int.ceil_le_ceil hle
    _ = ⌈b / 180⌉ - 1 := by
        rw [show ((⌈b / 180⌉ : ℚ) - 1) = ((⌈b / 180⌉ - 1 : ℤ) : ℚ) by push_cast; ring,
            Int.ceil_intCast]
  omega

/-- BeatDetector.estimateBPM (Quantizer.ts, lines 82-133): early 120 when
fewer than four onsets or no plausible interval; otherwise
`Math.round` of the canonically folded `60 / dominantInterval`. -/
def estimateBPM (onsetTimes : List ℚ) : ℚ :=
  if onsetTimes.length < 4 then 120
  else if (validIntervalsOf (intervalsOf onsetTimes)).isEmpty then 120
  else
    ((roundJS (normalizeDown (normalizeUp
        (60 / (((argmaxBin (histogramOf (validIntervalsOf (intervalsOf onsetTimes)))).2 : ℚ)
          * (1/20))))) : ℤ) : ℚ)

/-- NoteQuantizer.timeToBeat (Quantizer.ts, lines 193-195). -/
def timeToBeat (cfg : QuantizerConfig) (timeSeconds : ℚ) : ℚ :=
  timeSeconds * cfg.bpm / 60

/-- NoteQuantizer.snapToGrid (Quantizer.ts, lines 200-225). -/
def snapToGrid (cfg : QuantizerConfig) (beat : ℚ) : ℚ :=
  let gridUnit := cfg.minQuantization
  let gridPosition := roundJS (beat / gridUnit)
  let snappedBeat := (gridPosition : ℚ) * gridUnit
  let offset := |beat - snappedBeat|
  let tolerance := gridUnit * cfg.snapTolerance
  if offset ≤ tolerance then snappedBeat
  else if cfg.detectTriplets then
    let tripletGrid := gridUnit * 2 / 3
    let tripletPosition := roundJS (beat / tripletGrid)
    let snappedTriplet := (tripletPosition : ℚ) * tripletGrid
    let tripletOffset := |beat - snappedTriplet|
    if tripletOffset < offset then snappedTriplet else snappedBeat
  else snappedBeat

/-- NoteQuantizer.findDurationType (Quantizer.ts, lines 230-278): exact grid
match, then dotted match, then closest fit with a tie remainder that is
dropped when at or below `minQuantization`. -/
def findDurationType (cfg : QuantizerConfig) (durationBeats : ℚ) :
    NoteDurationType × Bool × ℚ :=
  match DURATION_GRID.find?
      (fun e => decide (|durationBeats - e.2| < cfg.minQuantization * (1/2))) with
  | some e => (e.1, false, 0)
  | none =>
    match DURATION_GRID.find?
        (fun e => decide (|durationBeats - e.2 * (3/2)| < cfg.minQuantization * (1/2))) with
    | some e => (e.1, true, 0)
    | none =>
      let best := DURATION_GRID.foldl
        (fun acc duration =>
          let diff := |durationBeats - duration.2|
          let acc1 := if diff < acc.2 then (duration, diff) else acc
          let dottedDiff := |durationBeats - duration.2 * (3/2)|
          if dottedDiff < acc1.2 then (duration, dottedDiff) else acc1)
        ((NoteDurationType.whole, 4), |durationBeats - 4|)
      let remainder := durationBeats - best.1.2
      (best.1.1, false, if cfg.minQuantization < remainder then remainder else 0)

/-- NoteQuantizer.getDurationBeats (Quantizer.ts, lines 368-371). -/
def getDurationBeats (t : NoteDurationType) : ℚ :=
  match DURATION_GRID.find? (fun e => e.1 == t) with
  | some e => e.2
  | none => 1

lemma getDurationBeats_ge (t : NoteDurationType) : (1 : ℚ)/16 ≤ getDurationBeats t := by
  cases t
  · show (1 : ℚ)/16 ≤ 4; norm_num
  · show (1 : ℚ)/16 ≤ 2; norm_num
  · show (1 : ℚ)/16 ≤ 1; norm_num
  · show (1 : ℚ)/16 ≤ 1/2; norm_num
  · show (1 : ℚ)/16 ≤ 1/4; norm_num
  · show (1 : ℚ)/16 ≤ 1/8; norm_num
  · show (1 : ℚ)/16 ≤ 1/16; norm_num

/-- NoteQuantizer.createTiedNotes (Quantizer.ts, lines 334-365): the
`while (remaining > minQuantization)` loop; each emitted chunk advances by
the full looked-up duration but is clipped to the remaining beats. -/
def createTiedNotes (cfg : QuantizerConfig) (pitch : Nat) (startBeat remainingBeats : ℚ)
    (velocity : ℤ) : List QuantizedNote :=
  if _h : cfg.minQuantization < remainingBeats then
    let r := findDurationType cfg remainingBeats
    let duration := if r.2.1 then getDurationBeats r.1 * (3/2) else getDurationBeats r.1
    { pitch := pitch, startBeat := startBeat,
      durationBeats := min duration remainingBeats,
      durationType := r.1, isDotted := r.2.1, velocity := velocity,
      tieToNext := cfg.minQuantization < remainingBeats - duration }
      :: createTiedNotes cfg pitch (startBeat + duration) (remainingBeats - duration) velocity
  else []
termination_by (⌈(remainingBeats - cfg.minQuantization) * 16⌉).toNat
decreasing_by
  simp only [dite_eq_ite]
  have hd : (1 : ℚ)/16 ≤ (if (findDurationType cfg remainingBeats).2.1
      then getDurationBeats (findDurationType cfg remainingBeats).1 * (3/2)
      else getDurationBeats (findDurationType cfg remainingBeats).1) := by
    split
    · have := getDurationBeats_ge (findDurationType cfg remainingBeats).1
      linarith
    · exact getDurationBeats_ge _
  have h1 : 0 < ⌈(remainingBeats - cfg.minQuantization) * 16⌉ :=
    Int.ceil_pos.mpr (by nlinarith)
  have h2 : ⌈(remainingBeats
        - (if (findDurationType cfg remainingBeats).2.1
             then getDurationBeats (findDurationType cfg remainingBeats).1 * (3/2)
             else getDurationBeats (findDurationType cfg remainingBeats).1)
        - cfg.minQuantization) * 16⌉
      ≤ ⌈(remainingBeats - cfg.minQuantization) * 16⌉ - 1 := by
    have hle : (remainingBeats
          - (if (findDurationType cfg remainingBeats).2.1
               then getDurationBeats (findDurationType cfg remainingBeats).1 * (3/2)
               else getDurationBeats (findDurationType cfg remainingBeats).1)
          - cfg.minQuantization) * 16
        ≤ (remainingBeats - cfg.minQuantization) * 16 - 1 := by nlinarith
    calc ⌈(remainingBeats
          - (if (findDurationType cfg remainingBeats).2.1
               then getDurationBeats (findDurationType cfg remainingBeats).1 * (3/2)
               else getDurationBeats (findDurationType cfg remainingBeats).1)
          - cfg.minQuantization) * 16⌉
        ≤ ⌈(remainingBeats - cfg.minQuantization) * 16 - 1⌉ := Int.ceil_le_ceil hle
    _ = ⌈(remainingBeats - cfg.minQuantization) * 16⌉ - 1 := by
        rw [show ((remainingBeats - cfg.minQuantization) * 16 - 1 : ℚ)
              = (remainingBeats - cfg.minQuantization) * 16 - ((1 : ℤ) : ℚ) by push_cast; ring,
            Int.ceil_sub_int]
  omega

/-- NoteQuantizer.quantizeNote (Quantizer.ts, lines 284-329).  The second
component is the beat detector's onset list after the `addOnset` call. -/
def quantizeNote (cfg : QuantizerConfig) (onsetTimes : List ℚ) (note : DetectedNote) :
    List QuantizedNote × List ℚ :=
  let onsetTimes' := addOnset onsetTimes note.startTime
  let startBeat := timeToBeat cfg note.startTime
  let durationBeats := timeToBeat cfg note.duration
  let snappedStart := snapToGrid cfg startBeat
  let snappedDuration := snapToGrid cfg durationBeats
  let clampedDuration := max snappedDuration cfg.minQuantization
  let r := findDurationType cfg clampedDuration
  let headDuration := if r.2.1 then getDurationBeats r.1 * (3/2) else getDurationBeats r.1
  let head : QuantizedNote :=
    { pitch := note.pitch, startBeat := snappedStart, durationBeats := headDuration,
      durationType := r.1, isDotted := r.2.1, velocity := note.velocity,
      tieToNext := 0 < r.2.2 }
  let rest := if 0 < r.2.2
    then createTiedNotes cfg note.pitch (snappedStart + head.durationBeats) r.2.2 note.velocity
    else []
  (head :: rest, onsetTimes')

def quantizeNotesGo (cfg : QuantizerConfig) :
    List ℚ → List DetectedNote → List QuantizedNote × List ℚ
  | onsetTimes, [] => ([], onsetTimes)
  | onsetTimes, n :: ns =>
    let q := quantizeNote cfg onsetTimes n
    let rest := quantizeNotesGo cfg q.2 ns
    (q.1 ++ rest.1, rest.2)

/-- NoteQuantizer.quantizeNotes (Quantizer.ts, lines 376-389): stable sort by
start time, then quantize in order, threading the beat detector state. -/
def quantizeNotes (cfg : QuantizerConfig) (onsetTimes : List ℚ) (notes : List DetectedNote) :
    List QuantizedNote × List ℚ :=
  let sorted := notes.mergeSort (fun a b => decide (a.startTime ≤ b.startTime))
  quantizeNotesGo cfg onsetTimes sorted

section QuantizerClaims

lemma quantizeNote_fst_indep (cfg : QuantizerConfig) (o1 o2 : List ℚ) (n : DetectedNote) :
    (quantizeNote cfg o1 n).1 = (quantizeNote cfg o2 n).1 := rfl

lemma quantizeNotesGo_fst_indep (cfg : QuantizerConfig) (l : List DetectedNote) :
    ∀ o1 o2 : List ℚ, (quantizeNotesGo cfg o1 l).1 = (quantizeNotesGo cfg o2 l).1 := by
  induction l with
  | nil => intro o1 o2; rfl
  | cons n ns ih =>
    intro o1 o2
    show (quantizeNote cfg o1 n).1 ++ (quantizeNotesGo cfg (quantizeNote cfg o1 n).2 ns).1
        = (quantizeNote cfg o2 n).1 ++ (quantizeNotesGo cfg (quantizeNote cfg o2 n).2 ns).1
    rw [quantizeNote_fst_indep cfg o1 o2, ih (quantizeNote cfg o1 n).2 (quantizeNote cfg o2 n).2]

/-- Claim C9: quantizeNotes run twice on the same unmodified note list with
the same configuration returns identical QuantizedNote sequences; the
beat-detector onsets recorded by the first call (the second component) do
not influence the second call's output. -/
theorem C9_quantizer_idempotent (cfg : QuantizerConfig) (onsetTimes : List ℚ)
    (notes : List DetectedNote) :
    (quantizeNotes cfg (quantizeNotes cfg onsetTimes notes).2 notes).1
      = (quantizeNotes cfg onsetTimes notes).1 := by
  unfold quantizeNotes
  exact quantizeNotesGo_fst_indep cfg _ _ _

/-- Claim C10: estimateBPM returns exactly 120 when fewer than four onsets
are recorded, and also when no consecutive inter-onset interval lies in the
plausible range [0.2 s, 2.0 s]. -/
theorem C10_default_tempo (onsetTimes : List ℚ) :
    (onsetTimes.length < 4 → estimateBPM onsetTimes = 120) ∧
    ((∀ i ∈ intervalsOf onsetTimes, ¬(1/5 ≤ i ∧ i ≤ 2)) → estimateBPM onsetTimes = 120) := by
  constructor
  · intro h
    unfold estimateBPM
    rw [if_pos h]
  · intro h
    unfold estimateBPM
    split
    · rfl
    · have hempty : validIntervalsOf (intervalsOf onsetTimes) = [] := by
        unfold validIntervalsOf
        rw [List.filter_eq_nil_iff]
        intro a ha
        have := h a ha
        simp only [Bool.and_eq_true, decide_eq_true_eq]
        tauto
      simp only [hempty]
      rfl

theorem C10_default_tempo_witness :
    (List.length ([0] : List ℚ) < 4 ∧ estimateBPM [0] = 120) ∧
    ((∀ i ∈ intervalsOf [0, 10, 20, 30, 40], ¬((1:ℚ)/5 ≤ i ∧ i ≤ 2)) ∧
      estimateBPM [0, 10, 20, 30, 40] = 120) :=
  ⟨⟨by norm_num, (C10_default_tempo [0]).1 (by norm_num)⟩,
   ⟨by norm_num [intervalsOf], (C10_default_tempo [0, 10, 20, 30, 40]).2
      (by norm_num [intervalsOf])⟩⟩

end QuantizerClaims

section TempoClaims

lemma le_roundJS (x : ℚ) (n : ℤ) (h : (n : ℚ) ≤ x) : n ≤ roundJS x :=
  Int.le_floor.mpr (by linarith)

lemma roundJS_le (x : ℚ) (n : ℤ) (h : x ≤ (n : ℚ)) : roundJS x ≤ n := by
  have h1 : ⌊x + 1/2⌋ < n + 1 := by
    rw [Int.floor_lt]
    push_cast
    linarith
  unfold roundJS
  omega

lemma roundJS_eq (x : ℚ) (n : ℤ) (h1 : (n : ℚ) ≤ x + 1/2) (h2 : x + 1/2 < (n : ℚ) + 1) :
    roundJS x = n := by
  unfold roundJS
  rw [Int.floor_eq_iff]
  exact ⟨h1, h2⟩

lemma bumpBin_keys (P : ℤ → Prop) (h : List (ℤ × Nat)) (b : ℤ)
    (hh : ∀ e ∈ h, P e.1) (hb : P b) : ∀ e ∈ bumpBin h b, P e.1 := by
  intro e he
  unfold bumpBin at he
  split at he
  · rw [List.mem_map] at he
    obtain ⟨e', he', heq⟩ := he
    have := hh e' he'
    split at heq <;> simp only [← heq] <;> exact this
  · rw [List.mem_append] at he
    rcases he with he | he
    · exact hh e he
    · simp only [List.mem_singleton] at he
      rw [he]
      exact hb

lemma bumpBin_counts (h : List (ℤ × Nat)) (b : ℤ)
    (hh : ∀ e ∈ h, 1 ≤ e.2) : ∀ e ∈ bumpBin h b, 1 ≤ e.2 := by
  intro e he
  unfold bumpBin at he
  split at he
  · rw [List.mem_map] at he
    obtain ⟨e', he', heq⟩ := he
    have := hh e' he'
    split at heq <;> simp only [← heq] <;> omega
  · rw [List.mem_append] at he
    rcases he with he | he
    · exact hh e he
    · simp only [List.mem_singleton] at he
      rw [he]

lemma bumpBin_ne_nil (h : List (ℤ × Nat)) (b : ℤ) : bumpBin h b ≠ [] := by
  unfold bumpBin
  split
  · intro hc
    rw [List.map_eq_nil_iff] at hc
    subst hc
    simp_all
  · simp

lemma histFold_keys (P : ℤ → Prop) (l : List ℚ)
    (hl : ∀ i ∈ l, P (roundJS (i / (1/20)))) :
    ∀ h0, (∀ e ∈ h0, P e.1) →
      ∀ e ∈ l.foldl (fun h i => bumpBin h (roundJS (i / (1/20)))) h0, P e.1 := by
  induction l with
  | nil => intro h0 hh0; exact hh0
  | cons i l ih =>
    intro h0 hh0
    rw [List.foldl_cons]
    exact ih (fun j hj => hl j (List.mem_cons_of_mem _ hj)) _
      (bumpBin_keys P h0 _ hh0 (hl i (List.mem_cons_self _ _)))

lemma histFold_counts (l : List ℚ) :
    ∀ h0, (∀ e ∈ h0, 1 ≤ e.2) →
      ∀ e ∈ l.foldl (fun h i => bumpBin h (roundJS (i / (1/20)))) h0, 1 ≤ e.2 := by
  induction l with
  | nil => intro h0 hh0; exact hh0
  | cons i l ih =>
    intro h0 hh0
    rw [List.foldl_cons]
    exact ih _ (bumpBin_counts h0 _ hh0)

lemma histFold_ne_nil (l : List ℚ) :
    ∀ h0, h0 ≠ [] → l.foldl (fun h i => bumpBin h (roundJS (i / (1/20)))) h0 ≠ [] := by
  induction l with
  | nil => intro h0 hh0; exact hh0
  | cons i l ih =>
    intro h0 _
    rw [List.foldl_cons]
    exact ih _ (bumpBin_ne_nil h0 _)

lemma argmaxBin_aux (P : ℤ → Prop) (l : List (ℤ × Nat)) :
    ∀ acc : Nat × ℤ, (∀ e ∈ l, P e.1) →
      (P acc.2 ∨ ∃ e ∈ l, acc.1 < e.2) →
      P ((l.foldl (fun acc e => if acc.1 < e.2 then (e.2, e.1) else acc) acc).2) := by
  induction l with
  | nil =>
    intro acc hP hor
    rcases hor with h | ⟨e, he, _⟩
    · exact h
    · exact absurd he (List.not_mem_nil e)
  | cons e l ih =>
    intro acc hP hor
    rw [List.foldl_cons]
    by_cases hlt : acc.1 < e.2
    · rw [if_pos hlt]
      exact ih (e.2, e.1) (fun x hx => hP x (List.mem_cons_of_mem _ hx))
        (Or.inl (hP e (List.mem_cons_self _ _)))
    · rw [if_neg hlt]
      apply ih acc (fun x hx => hP x (List.mem_cons_of_mem _ hx))
      rcases hor with h | ⟨e', he', hgt⟩
      · exact Or.inl h
      · rcases List.mem_cons.mp he' with rfl | he'
        · exact absurd hgt hlt
        · exact Or.inr ⟨e', he', hgt⟩

lemma normalizeUp_bounds (b : ℚ) (h1 : 30 ≤ b) (h2 : b ≤ 300) :
    60 ≤ normalizeUp b ∧ normalizeUp b ≤ 300 := by
  by_cases hlt : b < 60
  · rw [normalizeUp, dif_pos ⟨by linarith, hlt⟩, normalizeUp,
        dif_neg (by push_neg; intro _; linarith)]
    constructor <;> linarith
  · rw [normalizeUp, dif_neg (by push_neg; intro _; linarith)]
    constructor <;> linarith

lemma normalizeDown_bounds (b : ℚ) (h1 : 60 ≤ b) (h2 : b ≤ 300) :
    60 ≤ normalizeDown b ∧ normalizeDown b ≤ 180 := by
  by_cases hgt : 180 < b
  · rw [normalizeDown, dif_pos hgt, normalizeDown, dif_neg (by linarith)]
    constructor <;> linarith
  · rw [normalizeDown, dif_neg hgt]
    constructor <;> linarith

end TempoClaims

section TempoMain

lemma histFold_const (l : List ℚ) (hl : ∀ i ∈ l, i = 1/2) :
    ∀ m : Nat, l.foldl (fun h i => bumpBin h (roundJS (i / (1/20)))) [((10 : ℤ), m)]
      = [((10 : ℤ), m + l.length)] := by
  induction l with
  | nil => intro m; simp
  | cons i l ih =>
    intro m
    rw [List.foldl_cons, hl i (List.mem_cons_self _ _),
        show roundJS ((1 : ℚ)/2 / (1/20)) = 10 from roundJS_eq _ _ (by norm_num) (by norm_num),
        show bumpBin [((10 : ℤ), m)] 10 = [((10 : ℤ), m + 1)] by simp [bumpBin],
        ih (fun j hj => hl j (List.mem_cons_of_mem _ hj)) (m + 1),
        show m + 1 + l.length = m + (l.length + 1) by omega, List.length_cons]

lemma histFold_const_nil (l : List ℚ) (hl : ∀ i ∈ l, i = 1/2) (hne : l ≠ []) :
    l.foldl (fun h i => bumpBin h (roundJS (i / (1/20)))) [] = [((10 : ℤ), l.length)] := by
  cases l with
  | nil => exact absurd rfl hne
  | cons i l =>
    rw [List.foldl_cons, hl i (List.mem_cons_self _ _),
        show roundJS ((1 : ℚ)/2 / (1/20)) = 10 from roundJS_eq _ _ (by norm_num) (by norm_num),
        show bumpBin [] (10 : ℤ) = [((10 : ℤ), 1)] from rfl,
        histFold_const l (fun j hj => hl j (List.mem_cons_of_mem _ hj)) 1, List.length_cons,
        show 1 + l.length = l.length + 1 by omega]

lemma estimateBPM_range (onsetTimes : List ℚ) :
    60 ≤ estimateBPM onsetTimes ∧ estimateBPM onsetTimes ≤ 180 := by
  unfold estimateBPM
  split
  · norm_num
  · split
    · norm_num
    · next hne =>
      have hVmem : ∀ i ∈ validIntervalsOf (intervalsOf onsetTimes), 1/5 ≤ i ∧ i ≤ 2 := by
        intro i hi
        unfold validIntervalsOf at hi
        rw [List.mem_filter] at hi
        have h2 := hi.2
        simp only [Bool.and_eq_true, decide_eq_true_eq] at h2
        exact h2
      have hVne : validIntervalsOf (intervalsOf onsetTimes) ≠ [] := by
        intro hc
        exact hne (by rw [hc]; rfl)
      have hkeys : ∀ e ∈ histogramOf (validIntervalsOf (intervalsOf onsetTimes)),
          4 ≤ e.1 ∧ e.1 ≤ 40 := by
        unfold histogramOf
        apply histFold_keys (fun b => 4 ≤ b ∧ b ≤ 40) _ ?_ [] (by simp)
        intro i hi
        obtain ⟨hi1, hi2⟩ := hVmem i hi
        have hdiv : i / (1/20 : ℚ) = i * 20 := by
          rw [div_eq_mul_inv, one_div, inv_inv]
        constructor
        · apply le_roundJS
          rw [hdiv]
          push_cast
          linarith
        · apply roundJS_le
          rw [hdiv]
          push_cast
          linarith
      have hcounts : ∀ e ∈ histogramOf (validIntervalsOf (intervalsOf onsetTimes)), 1 ≤ e.2 := by
        unfold histogramOf
        exact histFold_counts _ [] (by simp)
      have hhne : histogramOf (validIntervalsOf (intervalsOf onsetTimes)) ≠ [] := by
        unfold histogramOf
        cases hV2 : validIntervalsOf (intervalsOf onsetTimes) with
        | nil => exact absurd hV2 hVne
        | cons i l =>
          rw [List.foldl_cons]
          exact histFold_ne_nil l _ (bumpBin_ne_nil [] _)
      have hdom : 4 ≤ (argmaxBin (histogramOf (validIntervalsOf (intervalsOf onsetTimes)))).2
          ∧ (argmaxBin (histogramOf (validIntervalsOf (intervalsOf onsetTimes)))).2 ≤ 40 := by
        unfold argmaxBin
        refine argmaxBin_aux (fun b => 4 ≤ b ∧ b ≤ 40) _ (0, 0) hkeys (Or.inr ?_)
        obtain ⟨e, he⟩ := List.exists_mem_of_ne_nil _ hhne
        exact ⟨e, he, by have := hcounts e he; omega⟩
      have hB1 : (1/5 : ℚ)
          ≤ ((argmaxBin (histogramOf (validIntervalsOf (intervalsOf onsetTimes)))).2 : ℚ)
              * (1/20) := by
        have h4 : ((4 : ℤ) : ℚ)
            ≤ ((argmaxBin (histogramOf (validIntervalsOf (intervalsOf onsetTimes)))).2 : ℚ) := by
          exact_mod_cast hdom.1
        push_cast at h4
        linarith
      have hB2 : ((argmaxBin (histogramOf (validIntervalsOf (intervalsOf onsetTimes)))).2 : ℚ)
          * (1/20) ≤ 2 := by
        have h40 : ((argmaxBin (histogramOf (validIntervalsOf (intervalsOf onsetTimes)))).2 : ℚ)
            ≤ ((40 : ℤ) : ℚ) := by
          exact_mod_cast hdom.2
        push_cast at h40
        linarith
      have hpos : (0 : ℚ)
          < ((argmaxBin (histogramOf (validIntervalsOf (intervalsOf onsetTimes)))).2 : ℚ)
              * (1/20) := by linarith
      have hbpm1 : (30 : ℚ) ≤ 60 /
          (((argmaxBin (histogramOf (validIntervalsOf (intervalsOf onsetTimes)))).2 : ℚ)
            * (1/20)) := by
        rw [le_div_iff₀ hpos]
        linarith
      have hbpm2 : 60 /
          (((argmaxBin (histogramOf (validIntervalsOf (intervalsOf onsetTimes)))).2 : ℚ)
            * (1/20)) ≤ 300 := by
        rw [div_le_iff₀ hpos]
        linarith
      obtain ⟨hu1, hu2⟩ := normalizeUp_bounds _ hbpm1 hbpm2
      obtain ⟨hd1, hd2⟩ := normalizeDown_bounds _ hu1 hu2
      constructor
      · have := le_roundJS _ 60 hd1
        exact_mod_cast this
      · have := roundJS_le _ 180 hd2
        exact_mod_cast this

/-- Claim C8: at least four onsets spaced exactly 0.5 s apart estimate to
120 BPM, and for every onset history the folded estimate lies in 60-180. -/
theorem C8_tempo_estimation :
    (∀ onsetTimes : List ℚ, 4 ≤ onsetTimes.length →
       (∀ i ∈ intervalsOf onsetTimes, i = 1/2) →
       estimateBPM onsetTimes = 120) ∧
    (∀ onsetTimes : List ℚ, 60 ≤ estimateBPM onsetTimes ∧ estimateBPM onsetTimes ≤ 180) := by
  constructor
  · intro onsetTimes h4 hint
    unfold estimateBPM
    rw [if_neg (not_lt.mpr h4)]
    have hvalid : validIntervalsOf (intervalsOf onsetTimes) = intervalsOf onsetTimes := by
      unfold validIntervalsOf
      rw [List.filter_eq_self]
      intro a ha
      rw [hint a ha]
      rw [Bool.and_eq_true, decide_eq_true_eq, decide_eq_true_eq]
      constructor <;> norm_num
    have hlen : (intervalsOf onsetTimes).length = onsetTimes.length - 1 := by
      unfold intervalsOf
      rw [List.length_zipWith, List.length_tail]
      omega
    have hne : intervalsOf onsetTimes ≠ [] := by
      intro hc
      rw [hc] at hlen
      simp at hlen
      omega
    rw [hvalid, if_neg (by simp [List.isEmpty_iff, hne])]
    unfold histogramOf
    rw [histFold_const_nil (intervalsOf onsetTimes) hint hne]
    have hlen1 : 0 < (intervalsOf onsetTimes).length := by
      rw [hlen]; omega
    have hmax : (argmaxBin [((10 : ℤ), (intervalsOf onsetTimes).length)]).2 = 10 := by
      unfold argmaxBin
      rw [List.foldl_cons]
      show (List.foldl _ (if (0 : Nat) < (intervalsOf onsetTimes).length
        then ((intervalsOf onsetTimes).length, (10 : ℤ)) else (0, 0)) []).2 = 10
      rw [if_pos hlen1]
      rfl
    rw [hmax]
    rw [show (60 : ℚ) / (((10 : ℤ) : ℚ) * (1/20)) = 120 by norm_num]
    rw [show normalizeUp 120 = 120 by rw [normalizeUp, dif_neg (by norm_num)]]
    rw [show normalizeDown 120 = 120 by rw [normalizeDown, dif_neg (by norm_num)]]
    rw [roundJS_eq 120 120 (by norm_num) (by norm_num)]
    norm_num
  · exact estimateBPM_range

theorem C8_tempo_estimation_witness :
    (4 ≤ List.length [(0 : ℚ), 1/2, 1, 3/2] ∧
     (∀ i ∈ intervalsOf [(0 : ℚ), 1/2, 1, 3/2], i = 1/2) ∧
     estimateBPM [(0 : ℚ), 1/2, 1, 3/2] = 120) ∧
    (60 ≤ estimateBPM [(7 : ℚ)] ∧ estimateBPM [(7 : ℚ)] ≤ 180) :=
  ⟨⟨by norm_num, by norm_num [intervalsOf],
    C8_tempo_estimation.1 [(0 : ℚ), 1/2, 1, 3/2] (by norm_num) (by norm_num [intervalsOf])⟩,
   C8_tempo_estimation.2 [(7 : ℚ)]⟩

end TempoMain

section TieChainClaims

lemma getDurationBeats_mem : ∀ e ∈ DURATION_GRID, getDurationBeats e.1 = e.2 := by
  intro e he
  fin_cases he <;> rfl

lemma findDuration_fold_mem (d : ℚ) (l : List (NoteDurationType × ℚ)) :
    ∀ acc : (NoteDurationType × ℚ) × ℚ, acc.1 ∈ DURATION_GRID →
      (∀ e ∈ l, e ∈ DURATION_GRID) →
      (l.foldl (fun acc duration =>
          let diff := |d - duration.2|
          let acc1 := if diff < acc.2 then (duration, diff) else acc
          let dottedDiff := |d - duration.2 * (3/2)|
          if dottedDiff < acc1.2 then (duration, dottedDiff) else acc1) acc).1
        ∈ DURATION_GRID := by
  induction l with
  | nil => intro acc h _; exact h
  | cons e l ih =>
    intro acc hacc hl
    rw [List.foldl_cons]
    apply ih
    · have hegrid := hl e (List.mem_cons_self _ _)
      simp only []
      split_ifs <;> first | exact hegrid | exact hacc
    · exact fun x hx => hl x (List.mem_cons_of_mem _ hx)

lemma findDurationType_remainder_pos (cfg : QuantizerConfig) (d : ℚ)
    (h : 0 < (findDurationType cfg d).2.2) :
    (findDurationType cfg d).2.1 = false
      ∧ getDurationBeats (findDurationType cfg d).1 + (findDurationType cfg d).2.2 = d := by
  unfold findDurationType at h ⊢
  rcases hf1 : DURATION_GRID.find?
      (fun e => decide (|d - e.2| < cfg.minQuantization * (1/2))) with _ | e
  · simp only [hf1] at h ⊢
    rcases hf2 : DURATION_GRID.find?
        (fun e => decide (|d - e.2 * (3/2)| < cfg.minQuantization * (1/2))) with _ | e
    · simp only [hf2] at h ⊢
      by_cases hrem : cfg.minQuantization < d
          - (DURATION_GRID.foldl (fun acc duration =>
              let diff := |d - duration.2|
              let acc1 := if diff < acc.2 then (duration, diff) else acc
              let dottedDiff := |d - duration.2 * (3/2)|
              if dottedDiff < acc1.2 then (duration, dottedDiff) else acc1)
              ((NoteDurationType.whole, 4), |d - 4|)).1.2
      · rw [if_pos hrem] at h ⊢
        refine ⟨by trivial, ?_⟩
        rw [getDurationBeats_mem _ (findDuration_fold_mem d DURATION_GRID _ (by simp [DURATION_GRID]) (fun x hx => hx))]
        ring
      · rw [if_neg hrem] at h
        norm_num at h
    · simp only [hf2] at h
      norm_num at h
  · simp only [hf1] at h
    norm_num at h

lemma tied_measure_lt (cfg : QuantizerConfig) (r d : ℚ)
    (hguard : cfg.minQuantization < r) (hd : (1 : ℚ)/16 ≤ d) :
    (⌈(r - d - cfg.minQuantization) * 16⌉).toNat
      < (⌈(r - cfg.minQuantization) * 16⌉).toNat := by
  have h1 : 0 < ⌈(r - cfg.minQuantization) * 16⌉ := Int.ceil_pos.mpr (by nlinarith)
  have h2 : ⌈(r - d - cfg.minQuantization) * 16⌉ ≤ ⌈(r - cfg.minQuantization) * 16⌉ - 1 := by
    have hle : (r - d - cfg.minQuantization) * 16 ≤ (r - cfg.minQuantization) * 16 - 1 := by
      nlinarith
    calc ⌈(r - d - cfg.minQuantization) * 16⌉ ≤ ⌈(r - cfg.minQuantization) * 16 - 1⌉ :=
          Int.ceil_le_ceil hle
    _ = ⌈(r - cfg.minQuantization) * 16⌉ - 1 := by
        rw [show ((r - cfg.minQuantization) * 16 - 1 : ℚ)
              = (r - cfg.minQuantization) * 16 - ((1 : ℤ) : ℚ) by push_cast; ring,
            Int.ceil_sub_int]
  omega

/-- The `duration` chosen inside one iteration of the createTiedNotes loop. -/
def tieDuration (cfg : QuantizerConfig) (r : ℚ) : ℚ :=
  if (findDurationType cfg r).2.1 then getDurationBeats (findDurationType cfg r).1 * (3/2)
  else getDurationBeats (findDurationType cfg r).1

lemma tieDuration_ge (cfg : QuantizerConfig) (r : ℚ) : (1 : ℚ)/16 ≤ tieDuration cfg r := by
  unfold tieDuration
  split
  · have := getDurationBeats_ge (findDurationType cfg r).1
    linarith
  · exact getDurationBeats_ge _

lemma createTiedNotes_cons (cfg : QuantizerConfig) (pitch : Nat) (startBeat r : ℚ)
    (velocity : ℤ) (hguard : cfg.minQuantization < r) :
    createTiedNotes cfg pitch startBeat r velocity
      = { pitch := pitch, startBeat := startBeat,
          durationBeats := min (tieDuration cfg r) r,
          durationType := (findDurationType cfg r).1,
          isDotted := (findDurationType cfg r).2.1, velocity := velocity,
          tieToNext := cfg.minQuantization < r - tieDuration cfg r }
        :: createTiedNotes cfg pitch (startBeat + tieDuration cfg r)
            (r - tieDuration cfg r) velocity := by
  rw [createTiedNotes, dif_pos hguard]
  rfl

lemma createTiedNotes_sum (cfg : QuantizerConfig) (hq : 0 < cfg.minQuantization)
    (pitch : Nat) (velocity : ℤ) :
    ∀ (startBeat r : ℚ),
      0 ≤ ((createTiedNotes cfg pitch startBeat r velocity).map (fun n => n.durationBeats)).sum
      ∧ ((createTiedNotes cfg pitch startBeat r velocity).map (fun n => n.durationBeats)).sum
          ≤ max r 0
      ∧ r - cfg.minQuantization
          ≤ ((createTiedNotes cfg pitch startBeat r velocity).map
              (fun n => n.durationBeats)).sum := by
  intro startBeat r
  generalize hm : (⌈(r - cfg.minQuantization) * 16⌉).toNat = n
  induction n using Nat.strong_induction_on generalizing startBeat r with
  | _ n ih =>
  by_cases hguard : cfg.minQuantization < r
  · rw [createTiedNotes_cons cfg pitch startBeat r velocity hguard]
    have hd := tieDuration_ge cfg r
    have hdec := tied_measure_lt cfg r (tieDuration cfg r) hguard hd
    rw [hm] at hdec
    obtain ⟨ih0, ih1, ih2⟩ := ih _ hdec (startBeat + tieDuration cfg r)
      (r - tieDuration cfg r) rfl
    simp only [List.map_cons, List.sum_cons]
    have hr0 : (0 : ℚ) < r := lt_trans hq hguard
    have hd0 : (0 : ℚ) < tieDuration cfg r := lt_of_lt_of_le (by norm_num) hd
    rcases le_total (tieDuration cfg r) r with hle | hle
    · rw [min_eq_left hle, max_eq_left (le_of_lt hr0)]
      rw [max_eq_left (by linarith : (0 : ℚ) ≤ r - tieDuration cfg r)] at ih1
      exact ⟨by linarith, by linarith, by linarith⟩
    · rw [min_eq_right hle, max_eq_left (le_of_lt hr0)]
      rw [max_eq_right (by linarith : r - tieDuration cfg r ≤ 0)] at ih1
      exact ⟨by linarith, by linarith, by linarith⟩
  · rw [createTiedNotes, dif_neg hguard]
    simp only [List.map_nil, List.sum_nil]
    push_neg at hguard
    exact ⟨le_refl 0, le_max_right r 0, by linarith⟩

end TieChainClaims

section TieChainEval

lemma timeToBeat_five : timeToBeat DEFAULT_CONFIG (5/2) = 5 := by
  norm_num [timeToBeat, DEFAULT_CONFIG]

lemma snapToGrid_five : snapToGrid DEFAULT_CONFIG 5 = 5 := by
  simp only [snapToGrid, DEFAULT_CONFIG]
  rw [show roundJS ((5 : ℚ) / (1/16)) = 80 from roundJS_eq _ _ (by norm_num) (by norm_num)]
  norm_num

lemma clamped_five :
    max (snapToGrid DEFAULT_CONFIG (timeToBeat DEFAULT_CONFIG (5/2)))
      DEFAULT_CONFIG.minQuantization = 5 := by
  rw [timeToBeat_five, snapToGrid_five]
  simp only [DEFAULT_CONFIG]
  rw [max_eq_left (by norm_num)]

lemma findDurationType_five :
    findDurationType DEFAULT_CONFIG 5 = (NoteDurationType.whole, false, 1) := by
  unfold findDurationType
  norm_num [DURATION_GRID, List.find?, DEFAULT_CONFIG, abs_div]

lemma findDurationType_one :
    findDurationType DEFAULT_CONFIG 1 = (NoteDurationType.quarter, false, 0) := by
  unfold findDurationType
  norm_num [DURATION_GRID, List.find?, DEFAULT_CONFIG, abs_div]

lemma tiedNotes_one (pitch : Nat) (s : ℚ) (v : ℤ) :
    ((createTiedNotes DEFAULT_CONFIG pitch s 1 v).map (fun n => n.durationBeats)).sum = 1 := by
  rw [createTiedNotes_cons DEFAULT_CONFIG pitch s 1 v (by norm_num [DEFAULT_CONFIG])]
  have htd : tieDuration DEFAULT_CONFIG 1 = 1 := by
    unfold tieDuration
    rw [findDurationType_one]
    rfl
  rw [htd]
  rw [show (1 : ℚ) - 1 = 0 by norm_num]
  rw [createTiedNotes, dif_neg (by norm_num [DEFAULT_CONFIG])]
  simp

lemma timeToBeat_frac : timeToBeat DEFAULT_CONFIG (65/32) = 65/16 := by
  norm_num [timeToBeat, DEFAULT_CONFIG]

lemma snapToGrid_frac : snapToGrid DEFAULT_CONFIG (65/16) = 65/16 := by
  simp only [snapToGrid, DEFAULT_CONFIG]
  rw [show roundJS ((65/16 : ℚ) / (1/16)) = 65 from roundJS_eq _ _ (by norm_num) (by norm_num)]
  norm_num

lemma clamped_frac :
    max (snapToGrid DEFAULT_CONFIG (timeToBeat DEFAULT_CONFIG (65/32)))
      DEFAULT_CONFIG.minQuantization = 65/16 := by
  rw [timeToBeat_frac, snapToGrid_frac]
  simp only [DEFAULT_CONFIG]
  rw [max_eq_left (by norm_num)]

lemma findDurationType_frac :
    findDurationType DEFAULT_CONFIG (65/16) = (NoteDurationType.whole, false, 0) := by
  unfold findDurationType
  norm_num [DURATION_GRID, List.find?, DEFAULT_CONFIG, abs_div]

def noteFive : DetectedNote :=
  { pitch := 60, startTime := 0, endTime := some (5/2), duration := 5/2,
    velocity := 100, confidence := 1, isActive := false }

def noteTied : DetectedNote :=
  { pitch := 60, startTime := 0, endTime := some (65/32), duration := 65/32,
    velocity := 100, confidence := 1, isActive := false }

lemma quantizeNote_fst (cfg : QuantizerConfig) (onsetTimes : List ℚ) (note : DetectedNote) :
    (quantizeNote cfg onsetTimes note).1
      = { pitch := note.pitch,
          startBeat := snapToGrid cfg (timeToBeat cfg note.startTime),
          durationBeats := tieDuration cfg
            (max (snapToGrid cfg (timeToBeat cfg note.duration)) cfg.minQuantization),
          durationType := (findDurationType cfg
            (max (snapToGrid cfg (timeToBeat cfg note.duration)) cfg.minQuantization)).1,
          isDotted := (findDurationType cfg
            (max (snapToGrid cfg (timeToBeat cfg note.duration)) cfg.minQuantization)).2.1,
          velocity := note.velocity,
          tieToNext := 0 < (findDurationType cfg
            (max (snapToGrid cfg (timeToBeat cfg note.duration)) cfg.minQuantization)).2.2 }
        :: (if 0 < (findDurationType cfg
              (max (snapToGrid cfg (timeToBeat cfg note.duration)) cfg.minQuantization)).2.2
            then createTiedNotes cfg note.pitch
              (snapToGrid cfg (timeToBeat cfg note.startTime)
                + tieDuration cfg
                    (max (snapToGrid cfg (timeToBeat cfg note.duration)) cfg.minQuantization))
              (findDurationType cfg
                (max (snapToGrid cfg (timeToBeat cfg note.duration)) cfg.minQuantization)).2.2
              note.velocity
            else []) := rfl

/-- Claim C7 (amended): when quantizeNote leaves a positive tie remainder
(a genuine tie chain), the chain's durationBeats sum to the clamped snapped
duration of the source note to within minQuantization - not within 1e-6 -
and the 5.0-beat example sums to exactly 5.0. -/
theorem C7_tie_chain_sum :
    (∀ (cfg : QuantizerConfig) (onsetTimes : List ℚ) (note : DetectedNote),
       0 < cfg.minQuantization →
       0 < (findDurationType cfg
           (max (snapToGrid cfg (timeToBeat cfg note.duration)) cfg.minQuantization)).2.2 →
       |(((quantizeNote cfg onsetTimes note).1.map (fun n => n.durationBeats)).sum
           - max (snapToGrid cfg (timeToBeat cfg note.duration)) cfg.minQuantization)|
         ≤ cfg.minQuantization) ∧
    (((quantizeNote DEFAULT_CONFIG [] noteFive).1.map
        (fun n => n.durationBeats)).sum = 5) := by
  constructor
  · intro cfg onsetTimes note hq hrem
    obtain ⟨hdot, hsum⟩ := findDurationType_remainder_pos cfg _ hrem
    rw [quantizeNote_fst, if_pos hrem]
    simp only [List.map_cons, List.sum_cons]
    have htd : tieDuration cfg
        (max (snapToGrid cfg (timeToBeat cfg note.duration)) cfg.minQuantization)
        = getDurationBeats (findDurationType cfg
            (max (snapToGrid cfg (timeToBeat cfg note.duration)) cfg.minQuantization)).1 := by
      unfold tieDuration
      rw [hdot]
      rfl
    obtain ⟨h0, h1, h2⟩ := createTiedNotes_sum cfg hq note.pitch note.velocity
      (snapToGrid cfg (timeToBeat cfg note.startTime)
        + tieDuration cfg
            (max (snapToGrid cfg (timeToBeat cfg note.duration)) cfg.minQuantization))
      (findDurationType cfg
        (max (snapToGrid cfg (timeToBeat cfg note.duration)) cfg.minQuantization)).2.2
    rw [max_eq_left (le_of_lt hrem)] at h1
    rw [abs_le]
    constructor <;> linarith
  · rw [quantizeNote_fst]
    rw [show noteFive.duration = 5/2 from rfl]
    rw [clamped_five, findDurationType_five]
    rw [if_pos (by norm_num : (0 : ℚ) < ((NoteDurationType.whole, false, (1 : ℚ))).2.2)]
    rw [show tieDuration DEFAULT_CONFIG 5 = 4 from by
          unfold tieDuration
          rw [findDurationType_five]
          rfl]
    rw [show ((NoteDurationType.whole, false, (1 : ℚ))).2.2 = 1 from rfl]
    simp only [List.map_cons, List.sum_cons]
    rw [tiedNotes_one]
    norm_num

theorem C7_tie_chain_sum_counterexample :
    ¬ (|(((quantizeNote DEFAULT_CONFIG [] noteTied).1.map
          (fun n => n.durationBeats)).sum
        - max (snapToGrid DEFAULT_CONFIG (timeToBeat DEFAULT_CONFIG noteTied.duration))
            DEFAULT_CONFIG.minQuantization)|
      ≤ 1/1000000) := by
  rw [quantizeNote_fst]
  rw [show noteTied.duration = 65/32 from rfl]
  rw [clamped_frac, findDurationType_frac]
  rw [if_neg (by norm_num : ¬ (0 : ℚ) < ((NoteDurationType.whole, false, (0 : ℚ))).2.2)]
  rw [show tieDuration DEFAULT_CONFIG (65/16) = 4 from by
        unfold tieDuration
        rw [findDurationType_frac]
        rfl]
  simp only [List.map_cons, List.map_nil, List.sum_cons, List.sum_nil]
  norm_num [abs_div]

theorem C7_tie_chain_sum_witness :
    0 < DEFAULT_CONFIG.minQuantization ∧
    0 < (findDurationType DEFAULT_CONFIG
        (max (snapToGrid DEFAULT_CONFIG (timeToBeat DEFAULT_CONFIG noteFive.duration))
          DEFAULT_CONFIG.minQuantization)).2.2 ∧
    |(((quantizeNote DEFAULT_CONFIG [] noteFive).1.map
          (fun n => n.durationBeats)).sum
        - max (snapToGrid DEFAULT_CONFIG (timeToBeat DEFAULT_CONFIG noteFive.duration))
            DEFAULT_CONFIG.minQuantization)|
      ≤ DEFAULT_CONFIG.minQuantization :=
  ⟨by norm_num [DEFAULT_CONFIG],
   by
     rw [show noteFive.duration = 5/2 from rfl, clamped_five, findDurationType_five]
     norm_num,
   C7_tie_chain_sum.1 DEFAULT_CONFIG [] noteFive
     (by norm_num [DEFAULT_CONFIG])
     (by
       rw [show noteFive.duration = 5/2 from rfl, clamped_five, findDurationType_five]
       norm_num)⟩

end TieChainEval
